import Mathlib

/-!
Shallow embedding of the gleiphir per-application firewall core:
`src/gleipnird/src/rules.rs` (indexed rule table, matcher, rate buckets),
`src/gleipnird/src/netlink.rs` (socket-diag response filtering), and
`src/gleipnir/src/implementation.rs` (policy ingress validation).

Machine integers are `Nat` with an explicit `% 2 ^ w` at the points where
Rust wrapping matters; `Instant` / `Duration` are milliseconds as `Nat`;
code paths that can panic (slice indexing, `unreachable!`) return `Option`.
The types of the `gleipnir_interface` crate (`Rule`, `Device`, `Proto`,
`RuleTarget`, the `mask` method and `Rule::match_target`) are not part of
the three embedded files; they are modelled from the spec, as marked.
-/

namespace Gleiphir

/-- Modelled from the spec: `gleipnir_interface::Device` (§3): a rule or
packet direction, inbound or outbound. -/
inductive Device
| Input
| Output
deriving DecidableEq, Repr

/-- Modelled from the spec: `gleipnir_interface::Proto` (§3). -/
inductive Proto
| Tcp
| Udp
| UdpLite
deriving DecidableEq, Repr

/-- Modelled from the spec: `gleipnir_interface::RuleTarget` (§3):
accept, drop, or rate-limit with a bucket index. -/
inductive RuleTarget
| Accept
| Drop
| RateLimit (n : Nat)
deriving DecidableEq, Repr

/-- `std::net::IpAddr`: a v4 address is a `Nat` below `2 ^ 32`,
a v6 address a `Nat` below `2 ^ 128`. -/
inductive IpAddr
| V4 (a : Nat)
| V6 (a : Nat)
deriving DecidableEq, Repr

/-- `std::net::SocketAddr`: an address plus a 16-bit port. -/
structure SocketAddr where
  ip : IpAddr
  port : Nat
deriving DecidableEq, Repr

/-- Modelled from the spec: the `mask` method of `gleipnir_interface`
(§4.2 step "normalize by applying the mask to the prefix"): for an
address `a` of bit width `w`, keep the top `m` bits and zero the rest. -/
def natMask (w a m : Nat) : Nat := a - a % 2 ^ (w - m)

/-- Modelled from the spec: `gleipnir_interface::Rule` (§3): one ordered
entry with optional filters; `none` means wildcard. A port range is the
inclusive pair `(lo, hi)`; a subnet is `(prefix, mask length)`. -/
structure Rule where
  device : Option Device
  proto : Option Proto
  exe : Option String
  port : Option (Nat × Nat)
  subnet : Option (IpAddr × Nat)
  target : RuleTarget
deriving DecidableEq, Repr

/-- Modelled from the spec: the full five-predicate confirmation of
`Rule::match_target` (§4.3 step 6, field semantics from §3): every
specified field must match the packet; a subnet matches when the packet
address under the rule mask equals the rule prefix under the same mask. -/
def Rule.matches (r : Rule) (device : Device) (protocol : Proto)
    (addr : SocketAddr) (exe : String) : Bool :=
  (match r.device with
   | none => true
   | some d => d == device) &&
  (match r.proto with
   | none => true
   | some p => p == protocol) &&
  (match r.exe with
   | none => true
   | some e => e == exe) &&
  (match r.port with
   | none => true
   | some (lo, hi) => decide (lo ≤ addr.port ∧ addr.port ≤ hi)) &&
  (match r.subnet, addr.ip with
   | none, _ => true
   | some (.V4 p, m), .V4 a => natMask 32 a m == natMask 32 p m
   | some (.V6 p, m), .V6 a => natMask 128 a m == natMask 128 p m
   | some _, _ => false)

/-- Modelled from the spec: `Rule::match_target` returns `some target`
exactly when the rule fully matches the packet (§4.3 step 6). -/
def Rule.matchTarget (r : Rule) (device : Device) (protocol : Proto)
    (addr : SocketAddr) (exe : String) : Option RuleTarget :=
  if r.matches device protocol addr exe then some r.target else none

/-- `Bucket` (rules.rs:15-19): rate-limit accumulator state.
`timestamp` is the `Instant` of the window start, in milliseconds. -/
structure Bucket where
  bytes : Nat
  timestamp : Nat
  limit : Nat
deriving DecidableEq, Repr

/-- `Bucket::new` (rules.rs:22-28). -/
def Bucket.new (limit now : Nat) : Bucket :=
  { bytes := 0, timestamp := now, limit := limit }

/-- `Bucket::bytes` (rules.rs:38-46): the window-accounting read with
`PERIOD` = 500 ms, taking the current instant explicitly. Returns the
updated bucket together with the accumulator value it read. -/
def Bucket.readBytes (b : Bucket) (now : Nat) : Bucket × Nat :=
  if b.timestamp + 500 ≥ now then
    ({ b with timestamp := now, bytes := 0 }, 0)
  else
    (b, b.bytes)

/-- `Bucket::stuff` (rules.rs:29-36): charge `size` bytes; commit and
return true only under the strict comparison against the limit. -/
def Bucket.stuff (b : Bucket) (size now : Nat) : Bucket × Bool :=
  let r := b.readBytes now
  if r.2 + size < r.1.limit then
    ({ r.1 with bytes := r.1.bytes + size }, true)
  else
    (r.1, false)

/-- `HashMap::entry(k).or_default().push(i)` over a hash map modelled as
an association list with unique keys (only per-key content matters to any
lookup, so the hash map's iteration order is not load-bearing). -/
def insertIdx {K : Type} [DecidableEq K] :
    List (K × List Nat) → K → Nat → List (K × List Nat)
| [], k, i => [(k, [i])]
| (k', v) :: rest, k, i =>
  if k = k' then (k', v ++ [i]) :: rest else (k', v) :: insertIdx rest k i

/-- `HashMap::get` over the association-list model. -/
def lookupIdx {K : Type} [DecidableEq K] :
    List (K × List Nat) → K → Option (List Nat)
| [], _ => none
| (k', v) :: rest, k => if k = k' then some v else lookupIdx rest k

/-- `IndexedRules` (rules.rs:49-66), with the two library containers
modelled extensionally: the `IpLookupTable` as the association list of
`((normalized prefix, mask length), indices)` entries inserted into it,
and the `IntervalTree` as the list of `(half-open interval, index)`
elements it was frozen from. The interior-mutable `rate_state` and
`cache` live in the separate `RtState`. -/
structure IndexedRules where
  device : List (Device × List Nat)
  any_device : List Nat
  proto : List (Proto × List Nat)
  any_proto : List Nat
  exe : List (String × List Nat)
  any_exe : List Nat
  v4_table : List ((Nat × Nat) × List Nat)
  any_v4 : List Nat
  v6_table : List ((Nat × Nat) × List Nat)
  any_v6 : List Nat
  port : List ((Nat × Nat) × Nat)
  any_port : List Nat
  raw : List Rule
  default_target : RuleTarget
deriving Repr

/-- The loop body of `IndexedRules::new` (rules.rs:108-136) for the rule
at position `index`. The pending v4/v6 hash maps and the pending interval
list are written directly into the final fields, since the freeze steps
(rules.rs:138-145) transfer exactly their content: the interval `end` is
`hi + 1` in `u16` arithmetic, hence the explicit `% 65536`. -/
def insertRuleStep (r : IndexedRules) (index : Nat) (rule : Rule) : IndexedRules :=
  let r :=
    match rule.device with
    | some k => { r with device := insertIdx r.device k index }
    | none => { r with any_device := r.any_device ++ [index] }
  let r :=
    match rule.proto with
    | some k => { r with proto := insertIdx r.proto k index }
    | none => { r with any_proto := r.any_proto ++ [index] }
  let r :=
    match rule.exe with
    | some k => { r with exe := insertIdx r.exe k index }
    | none => { r with any_exe := r.any_exe ++ [index] }
  let r :=
    match rule.port with
    | some se => { r with port := r.port ++ [((se.1, (se.2 + 1) % 65536), index)] }
    | none => { r with any_port := r.any_port ++ [index] }
  match rule.subnet with
  | some (.V4 p, m) =>
    { r with v4_table := insertIdx r.v4_table (natMask 32 p m, m) index }
  | some (.V6 p, m) =>
    { r with v6_table := insertIdx r.v6_table (natMask 128 p m, m) index }
  | none => { r with any_v4 := r.any_v4 ++ [index], any_v6 := r.any_v6 ++ [index] }

/-- `IndexedRules::new` (rules.rs:69-148), without the interior-mutable
state (for which see `initState`): start from empty indices and fold the
per-rule insertion over the enumerated rule list. -/
def IndexedRules.new (dt : RuleTarget) (rules : List Rule) : IndexedRules :=
  (rules.enum).foldl (fun acc p => insertRuleStep acc p.1 p.2)
    { device := [], any_device := [], proto := [], any_proto := []
      exe := [], any_exe := [], v4_table := [], any_v4 := []
      v6_table := [], any_v6 := [], port := [], any_port := []
      raw := rules, default_target := dt }

/-- The construction loop as a fold from an arbitrary intermediate state,
for reasoning about `IndexedRules.new` by induction. -/
def buildFold (acc : IndexedRules) (el : List (Nat × Rule)) : IndexedRules :=
  el.foldl (fun a q => insertRuleStep a q.1 q.2) acc

/-- `IntervalTree::query_point` (used at rules.rs:188-192): the values of
all elements whose half-open interval contains `p`. -/
def queryPoint (t : List ((Nat × Nat) × Nat)) (p : Nat) : List Nat :=
  (t.filter (fun e => decide (e.1.1 ≤ p ∧ p < e.1.2))).map (fun e => e.2)

/-- `IpLookupTable::longest_match` (used at rules.rs:193-208) over the
association-list model: among the entries whose prefix of length `m`
covers the address (equal top `m` bits under width `w`), the one with the
longest mask. Keys are unique, so the result does not depend on entry
order. -/
def longestMatch (w : Nat) (t : List ((Nat × Nat) × List Nat)) (a : Nat) :
    Option ((Nat × Nat) × List Nat) :=
  t.foldl
    (fun best e =>
      if natMask w a e.1.2 = e.1.1 then
        match best with
        | none => some e
        | some b => if b.1.2 < e.1.2 then some e else some b
      else best)
    none

/-- The five `(exact, wildcard)` candidate pairs assembled by
`match_target` (rules.rs:184-215), in source order. -/
def IndexedRules.pairs (r : IndexedRules) (device : Device) (protocol : Proto)
    (addr : SocketAddr) (exe : String) : List (List Nat × List Nat) :=
  let exact_device := (lookupIdx r.device device).getD []
  let exact_proto := (lookupIdx r.proto protocol).getD []
  let exact_exe := (lookupIdx r.exe exe).getD []
  let exact_port := queryPoint r.port addr.port
  let ipPair :=
    match addr.ip with
    | .V4 a => (((longestMatch 32 r.v4_table a).map (fun x => x.2)).getD [], r.any_v4)
    | .V6 a => (((longestMatch 128 r.v6_table a).map (fun x => x.2)).getD [], r.any_v6)
  [(exact_device, r.any_device), (exact_proto, r.any_proto),
   (exact_exe, r.any_exe), (exact_port, r.any_port), ipPair]

/-- `min_by_key` on summed lengths (rules.rs:216-219): the first pair
whose `exact.len() + any.len()` is minimal. -/
def minPair : List (List Nat × List Nat) → (List Nat × List Nat)
| [] => ([], [])
| p :: rest =>
  rest.foldl
    (fun best q =>
      if q.1.length + q.2.length < best.1.length + best.2.length then q else best)
    p

/-- The candidate pool the matcher scans: the chosen exact list chained
with its wildcard list (rules.rs:221-223). -/
def IndexedRules.pool (r : IndexedRules) (device : Device) (protocol : Proto)
    (addr : SocketAddr) (exe : String) : List Nat :=
  let p := minPair (r.pairs device protocol addr exe)
  p.1 ++ p.2

/-- The `filter_map` body of `match_target` (rules.rs:224-228): index each
candidate into `raw` (`none` models the panic of an out-of-range index)
and keep those whose rule fully matches, paired with their target. -/
def survivorsE (raw : List Rule) (device : Device) (protocol : Proto)
    (addr : SocketAddr) (exe : String) : List Nat → Option (List (Nat × RuleTarget))
| [] => some []
| id :: rest =>
  match raw.get? id with
  | none => none
  | some rule =>
    match survivorsE raw device protocol addr exe rest with
    | none => none
    | some tail =>
      match rule.matchTarget device protocol addr exe with
      | some t => some ((id, t) :: tail)
      | none => some tail

/-- `min_by_key(|(id, _)| *id)` over the survivors (rules.rs:229). -/
def minSurvivor : List (Nat × RuleTarget) → Option (Nat × RuleTarget)
| [] => none
| s :: rest => some (rest.foldl (fun best q => if q.1 < best.1 then q else best) s)

/-- `IndexedRules::match_target` (rules.rs:177-232): the pure
classification, without cache and rate state; `none` models a panic. -/
def IndexedRules.matchTargetE (r : IndexedRules) (device : Device)
    (protocol : Proto) (addr : SocketAddr) (exe : String) :
    Option (Option Nat × RuleTarget) :=
  match survivorsE r.raw device protocol addr exe (r.pool device protocol addr exe) with
  | none => none
  | some survivors =>
    match minSurvivor survivors with
    | some (id, t) => some (some id, t)
    | none => some (none, r.default_target)

/-- The tuple hashed at rules.rs:158-159: the classifier inputs without
the payload length. The cache is NOT keyed by this tuple but by its
64-bit `DefaultHasher` digest; see `IndexedRules.isAcceptableE`. -/
structure CacheKey where
  device : Device
  protocol : Proto
  addr : SocketAddr
  exe : String
deriving DecidableEq, Repr

/-- The interior-mutable state of `IndexedRules`: the rate bucket vector
and the decision cache. The `LruCache` is keyed by the `u64` hasher
digest (rules.rs:65,160), here a `Nat`, and modelled as an association
list; LRU/capacity eviction only forgets entries and is not load-bearing
for the properties stated here. -/
structure RtState where
  buckets : List Bucket
  cache : List (Nat × (Option Nat × RuleTarget))
deriving DecidableEq, Repr

/-- `LruCache::get` over the association-list model, keyed by digest. -/
def lookupCache : List (Nat × (Option Nat × RuleTarget)) → Nat →
    Option (Option Nat × RuleTarget)
| [], _ => none
| (k', v) :: rest, k => if k = k' then some v else lookupCache rest k

/-- Bucket and cache creation at construction time (rules.rs:96-101):
one bucket per rate rule, stamped with the construction instant. -/
def initState (rate_rules : List Nat) (now : Nat) : RtState :=
  { buckets := rate_rules.map (fun l => Bucket.new l now), cache := [] }

/-- Applying the chosen target (rules.rs:169-173): accept and drop are
immediate; rate-limit charges the bucket with the payload length (`none`
models the panic of an out-of-range bucket index). -/
def applyTargetE (st : RtState) (t : RuleTarget) (len now : Nat) :
    Option (Bool × RtState) :=
  match t with
  | .Accept => some (true, st)
  | .Drop => some (false, st)
  | .RateLimit rid =>
    match st.buckets.get? rid with
    | none => none
    | some b =>
      let sb := b.stuff len now
      some (sb.2, { st with buckets := st.buckets.set rid sb.1 })

/-- `IndexedRules::is_acceptable` (rules.rs:150-175): hash the
`(device, protocol, addr, exe)` tuple to the `u64` digest `lru_index`
(rules.rs:158-160) — the embedding is generic in the `DefaultHasher`
digest function `hashFn`, and the digest, not the tuple, keys the cache,
so colliding tuples alias — look the digest up, on a miss classify and
insert under the digest, then apply the target; `none` models a panic. -/
def IndexedRules.isAcceptableE (r : IndexedRules) (hashFn : CacheKey → Nat)
    (st : RtState) (device : Device) (protocol : Proto) (addr : SocketAddr)
    (exe : String) (len now : Nat) : Option ((Option Nat × Bool) × RtState) :=
  let lru_index : Nat := hashFn ⟨device, protocol, addr, exe⟩
  match lookupCache st.cache lru_index with
  | some (id, t) =>
    match applyTargetE st t len now with
    | none => none
    | some (ok, st') => some ((id, ok), st')
  | none =>
    match r.matchTargetE device protocol addr exe with
    | none => none
    | some (id, t) =>
      let st1 := { st with cache := (lru_index, (id, t)) :: st.cache }
      match applyTargetE st1 t len now with
      | none => none
      | some (ok, st') => some ((id, ok), st')

/-- One classifier invocation: the packet descriptor plus the payload
length and the instant at which the call happens. -/
structure Call where
  device : Device
  protocol : Proto
  addr : SocketAddr
  exe : String
  len : Nat
  now : Nat
deriving Repr

/-- A sequence of classifier invocations threading the mutable state;
`none` as soon as any call panics. -/
def runCalls (r : IndexedRules) (hashFn : CacheKey → Nat) :
    RtState → List Call → Option RtState
| st, [] => some st
| st, c :: rest =>
  match r.isAcceptableE hashFn st c.device c.protocol c.addr c.exe c.len c.now with
  | none => none
  | some (_, st') => runCalls r hashFn st' rest

/-- Cache consistency: every cached entry pairs some tuple's digest with
that same tuple's pure classification — the invariant `is_acceptable`
maintains. Only when the digest function is collision-free does this
determine what a lookup returns for a given tuple. -/
def CacheOkH (hashFn : CacheKey → Nat) (R : IndexedRules)
    (c : List (Nat × (Option Nat × RuleTarget))) : Prop :=
  ∀ kv ∈ c, ∃ k : CacheKey, hashFn k = kv.1 ∧
    R.matchTargetE k.device k.protocol k.addr k.exe = some kv.2

/-- An injective encoding of `List Nat` into `Nat`, used to build a
collision-free digest function. -/
def encList : List Nat → Nat
| [] => 0
| x :: xs => Nat.pair x (encList xs) + 1

/-- An injective encoding of strings into `Nat`. -/
def encString (s : String) : Nat := encList (s.data.map Char.toNat)

/-- Numeric codes for `Device`. -/
def encDevice : Device → Nat
| .Input => 0
| .Output => 1

/-- Numeric codes for `Proto`. -/
def encProto : Proto → Nat
| .Tcp => 0
| .Udp => 1
| .UdpLite => 2

/-- An injective encoding of `IpAddr` into `Nat` (parity carries the
family). -/
def encIp : IpAddr → Nat
| .V4 a => 2 * a
| .V6 a => 2 * a + 1

/-- A collision-free digest function on classifier keys: what the claimed
determinism needs the 64-bit fingerprint to be (and a real 64-bit digest,
by pigeonhole, is not). -/
def hashInj (k : CacheKey) : Nat :=
  Nat.pair (encDevice k.device) (Nat.pair (encProto k.protocol)
    (Nat.pair (encIp k.addr.ip) (Nat.pair k.addr.port (encString k.exe))))

/-- Whether a target's rate-limit bucket index (if any) is below the
number of buckets `nb` — the data-model invariant of spec §3. -/
def targetOk (nb : Nat) : RuleTarget → Bool
| .RateLimit rid => rid < nb
| _ => true

/-- The accept bit as a function of bucket state, target, size and call
instant alone (spec §4.3 "Applying the target"); `none` models the panic
of an out-of-range bucket index. -/
def rateDecision (buckets : List Bucket) (t : RuleTarget) (len now : Nat) :
    Option Bool :=
  match t with
  | .Accept => some true
  | .Drop => some false
  | .RateLimit rid => (buckets.get? rid).map (fun b => (b.stuff len now).2)

/-- Whether the rule at position `i` fully matches the packet. -/
def matchesAt (rules : List Rule) (device : Device) (protocol : Proto)
    (addr : SocketAddr) (exe : String) (i : Nat) : Bool :=
  match rules.get? i with
  | some r => r.matches device protocol addr exe
  | none => false

/-- Following the spec's words (§8): the least index of a fully matching
rule, `min { i : rule_i fully matches P }` over the raw ordered list. -/
def firstMatchIdx (p : Rule → Bool) : List Rule → Option Nat
| [] => none
| r :: rest => if p r then some 0 else (firstMatchIdx p rest).map (· + 1)

/-- Following the spec's words (§4.3 steps 7-8): the lowest matching index
with its target, else `(none, default_target)`. -/
def specMatch (rules : List Rule) (dt : RuleTarget) (device : Device)
    (protocol : Proto) (addr : SocketAddr) (exe : String) :
    Option Nat × RuleTarget :=
  match firstMatchIdx (fun r => r.matches device protocol addr exe) rules with
  | some i =>
    (some i,
     match rules.get? i with
     | some r => r.target
     | none => dt)
  | none => (none, dt)

/-- The indices of the enumerated rules satisfying `p`, in order — the
shape every wildcard list and every per-key bucket of `IndexedRules.new`
turns out to have. -/
def selIdxs (p : Rule → Bool) (l : List (Nat × Rule)) : List Nat :=
  (l.filter (fun q => p q.2)).map Prod.fst

/-- The pending port-interval entries produced by the construction loop
for the enumerated rules `l`. -/
def portEntries (l : List (Nat × Rule)) : List ((Nat × Nat) × Nat) :=
  l.filterMap (fun q => q.2.port.map (fun se => ((se.1, (se.2 + 1) % 65536), q.1)))

/-- The v4 hash-map key the construction derives from a rule, if any. -/
def v4Key (r : Rule) : Option (Nat × Nat) :=
  match r.subnet with
  | some (.V4 p, m) => some (natMask 32 p m, m)
  | _ => none

/-- The v6 hash-map key the construction derives from a rule, if any. -/
def v6Key (r : Rule) : Option (Nat × Nat) :=
  match r.subnet with
  | some (.V6 p, m) => some (natMask 128 p m, m)
  | _ => none

/-- The five-rule end-to-end policy of spec §8, identical to the policy of
the `rules_indexing` test (rules.rs:252-293); addresses in numeric form:
1.1.1.1 = 16843009, 2.2.2.2 = 33686018, 0.0.0.0 = 0. -/
def scenarioRules : List Rule :=
  [ { device := some .Input, proto := none, exe := none, port := none,
      subnet := some (.V4 16843009, 32), target := .Accept },
    { device := some .Input, proto := some .Tcp, exe := none, port := none,
      subnet := some (.V4 16843009, 32), target := .Accept },
    { device := some .Input, proto := some .Tcp, exe := none, port := none,
      subnet := some (.V4 33686018, 30), target := .Accept },
    { device := some .Input, proto := none, exe := some "", port := some (10, 200),
      subnet := some (.V4 33686018, 32), target := .Accept },
    { device := some .Input, proto := none, exe := some "", port := some (100, 100),
      subnet := some (.V4 0, 0), target := .Accept } ]

/-- Three rules exhibiting longest-prefix shadowing: rule 0 is tcp-only on
1.1.1.1/32, rule 1 accepts anything inside 1.0.0.0/8 (= 16777216/8), and
rule 2 (9.9.9.9/32 = 151587081/32) pads the wildcard lists so that the IP
pair is the unique minimum. -/
def shadowRules : List Rule :=
  [ { device := none, proto := some .Tcp, exe := none, port := none,
      subnet := some (.V4 16843009, 32), target := .Accept },
    { device := none, proto := none, exe := none, port := none,
      subnet := some (.V4 16777216, 8), target := .Accept },
    { device := none, proto := none, exe := none, port := none,
      subnet := some (.V4 151587081, 32), target := .Accept } ]

/-- A single rule whose port range runs up to the top port 65535. -/
def topPortRules : List Rule :=
  [ { device := none, proto := none, exe := none, port := some (100, 65535),
      subnet := none, target := .Accept } ]

/-- A one-rule all-wildcard accept policy, used as a witness input. -/
def wildcardRules : List Rule :=
  [ { device := none, proto := none, exe := none, port := none,
      subnet := none, target := .Accept } ]

/-- A one-rule policy whose rule routes through rate bucket 0, used as a
witness input. -/
def rateLimitedRules : List Rule :=
  [ { device := none, proto := none, exe := none, port := none,
      subnet := none, target := .RateLimit 0 } ]

/-- A one-rule policy matching only the executable "a": packets from "a"
and from "b" classify differently, so a digest collision between their
cache keys is observable. -/
def aliasRules : List Rule :=
  [ { device := none, proto := none, exe := some "a", port := none,
      subnet := none, target := .Accept } ]

/-- `Port` (netlink.rs:160): two raw bytes, big-endian `u16`. -/
structure PortBE where
  hi : Nat
  lo : Nat
deriving DecidableEq, Repr

/-- `From<u16> for Port` (netlink.rs:162-166). -/
def PortBE.ofU16 (p : Nat) : PortBE := ⟨p / 256 % 256, p % 256⟩

/-- `From<Port> for u16` (netlink.rs:168-172). -/
def PortBE.toU16 (p : PortBE) : Nat := p.hi % 256 * 256 + p.lo % 256

/-- The `Ipv4or6` union (netlink.rs:186-192): sixteen raw bytes; a v4
address occupies the first four. -/
structure Ipv4or6 where
  b : List Nat
deriving DecidableEq, Repr

/-- `From<Ipv4or6> for Ipv4Addr` (netlink.rs:201-205): the first four
bytes, big-endian. -/
def Ipv4or6.toV4 (u : Ipv4or6) : Nat :=
  match u.b with
  | b0 :: b1 :: b2 :: b3 :: _ =>
    ((b0 % 256 * 256 + b1 % 256) * 256 + b2 % 256) * 256 + b3 % 256
  | _ => 0

/-- `From<Ipv4or6> for Ipv6Addr` (netlink.rs:241-245): all sixteen bytes,
big-endian. -/
def Ipv4or6.toV6 (u : Ipv4or6) : Nat :=
  (u.b.take 16).foldl (fun acc x => acc * 256 + x % 256) 0

/-- `PartialEq<net::IpAddr> for Ipv4or6` (netlink.rs:257-276): dispatch on
the family of the right-hand side, never on the union tag. -/
def Ipv4or6.eqIp (u : Ipv4or6) (a : IpAddr) : Bool :=
  match a with
  | .V4 n => u.toV4 == n
  | .V6 n => u.toV6 == n

/-- `InetDiagSockId` (netlink.rs:147-156). -/
structure InetDiagSockId where
  idiag_sport : PortBE
  idiag_dport : PortBE
  idiag_src : Ipv4or6
  idiag_dst : Ipv4or6
  idiag_if : Nat
  idiag_cookie : Nat × Nat
deriving DecidableEq, Repr

/-- `InetDiagMsg` (netlink.rs:132-145). -/
structure InetDiagMsg where
  idiag_family : Nat
  idiag_state : Nat
  idiag_timer : Nat
  idiag_retrans : Nat
  id : InetDiagSockId
  idiag_expires : Nat
  idiag_rqueue : Nat
  idiag_wqueue : Nat
  idiag_uid : Nat
  idiag_inode : Nat
deriving DecidableEq, Repr

/-- The retain condition of the response loop of `SockDiag::query`
(netlink.rs:68-73): all four address components equal the query and the
inode is nonzero. -/
def diagRetains (laddr raddr : SocketAddr) (m : InetDiagMsg) : Bool :=
  m.id.idiag_src.eqIp laddr.ip &&
  (m.id.idiag_sport.toU16 == laddr.port) &&
  m.id.idiag_dst.eqIp raddr.ip &&
  (m.id.idiag_dport.toU16 == raddr.port) &&
  (m.idiag_inode != 0)

/-- The error taxonomy relevant to the embedded part of `query`. -/
inductive DiagError
| NotFound
deriving DecidableEq, Repr

/-- The response-processing tail of `SockDiag::query` (netlink.rs:62-78),
abstracted over the decoded kernel response messages: overwrite `r` with
every retained message, then `NotFound` when none was retained. -/
def SockDiag.queryResult (laddr raddr : SocketAddr) (msgs : List InetDiagMsg) :
    Except DiagError InetDiagMsg :=
  match msgs.foldl (fun r m => if diagRetains laddr raddr m then some m else r) none with
  | some m => .ok m
  | none => .error .NotFound

/-- The parse outcome of the `addr` text field of a `QRule`: empty text, a
well-formed address, or text rejected by `str::parse` (the parser itself
is outside the embedded sources and is abstracted by its outcome). -/
inductive QAddr
| empty
| bad
| ip (a : IpAddr)
deriving DecidableEq, Repr

/-- `QRule` (implementation.rs:32-41): the GUI-side rule record; enum-like
fields are the numeric encodings the GUI stores. -/
structure QRule where
  device : Nat
  proto : Nat
  exe : String
  port_begin : Nat
  port_end : Nat
  addr : QAddr
  mask : Nat
  target : Nat
deriving DecidableEq, Repr

/-- `InvalidQRule` (implementation.rs:89-95). -/
inductive InvalidQRule
| PortRange (b e : Nat)
| Address
deriving DecidableEq, Repr

/-- The `device` decoding of `TryFrom<&QRule>` (implementation.rs:106-111);
`none` models the `unreachable!` panic. -/
def decodeDevice : Nat → Option (Option Device)
| 0 => some none
| 1 => some (some .Input)
| 2 => some (some .Output)
| _ => none

/-- The `proto` decoding of `TryFrom<&QRule>` (implementation.rs:112-118);
`none` models the `unreachable!` panic. -/
def decodeProto : Nat → Option (Option Proto)
| 0 => some none
| 1 => some (some .Tcp)
| 2 => some (some .Udp)
| 3 => some (some .UdpLite)
| _ => none

/-- `TryFrom<&QRule> for Rule` (implementation.rs:103-153); the outer
`Option` models the `unreachable!` panics on undecodable enum fields. -/
def QRule.tryToRule (q : QRule) : Option (Except InvalidQRule Rule) :=
  match decodeDevice q.device, decodeProto q.proto with
  | some device, some proto =>
    let exe := if q.exe = "" then none else some q.exe
    let portR : Except InvalidQRule (Option (Nat × Nat)) :=
      match q.port_begin, q.port_end with
      | 0, 0 => .ok none
      | p, 0 => .ok (some (p, p))
      | b, e => if b > e then .error (.PortRange b e) else .ok (some (b, e))
    let subnetR : Except InvalidQRule (Option (IpAddr × Nat)) :=
      match q.addr with
      | .empty => .ok none
      | .bad => .error .Address
      | .ip a => .ok (some (a, q.mask))
    let target : RuleTarget :=
      match q.target with
      | 0 => .Accept
      | 1 => .Drop
      | n => .RateLimit (n - 2)
    some
      (match portR, subnetR with
       | .error e, _ => .error e
       | _, .error e => .error e
       | .ok port, .ok subnet =>
         .ok { device := device, proto := proto, exe := exe, port := port,
               subnet := subnet, target := target })
  | _, _ => none

/-- The `collect::<Result<Vec<Rule>, _>>` of `Backend::apply_rules`
(implementation.rs:276-277): stop at the first conversion error. -/
def collectRules : List QRule → Option (Except InvalidQRule (List Rule))
| [] => some (.ok [])
| q :: rest =>
  match q.tryToRule with
  | none => none
  | some (.error e) => some (.error e)
  | some (.ok r) =>
    match collectRules rest with
    | none => none
    | some (.error e) => some (.error e)
    | some (.ok rs) => some (.ok (r :: rs))

/-- The policy-building half of `Backend::apply_rules`
(implementation.rs:275-297): convert every GUI rule; on a conversion
error emit `apply_rules_error` and return without sending (the prior
policy stays active, modelled as the inner `none`), otherwise assemble
and send the `Rules` record. The RPC transport is outside the model; the
value is what is handed to the daemon. -/
def Backend.applyRules (qrules : List QRule) (dt : Nat) (rate_limits : List Nat) :
    Option (Option (RuleTarget × List Rule × List Nat)) :=
  match collectRules qrules with
  | none => none
  | some (.error _) => some none
  | some (.ok rs) =>
    let target : RuleTarget :=
      match dt with
      | 0 => .Accept
      | 1 => .Drop
      | n => .RateLimit (n - 2)
    some (some (target, rs, rate_limits))

theorem Bucket.readBytes_limit (b : Bucket) (now : Nat) :
    (b.readBytes now).1.limit = b.limit := by
  unfold Bucket.readBytes
  split <;> rfl

theorem Bucket.readBytes_bytes (b : Bucket) (now : Nat) :
    (b.readBytes now).1.bytes = (b.readBytes now).2 := by
  unfold Bucket.readBytes
  split <;> rfl

/-- The embedding agrees with the repository's own `rules_indexing` test
(rules.rs:331-334): `(in, tcp, 2.2.2.2:100, 0, "")` classifies to
`(some 3, true)` under the scenario policy. -/
example :
    ((IndexedRules.new .Drop scenarioRules).isAcceptableE (fun _ => 0)
        (initState [] 0) .Input .Tcp ⟨.V4 33686018, 100⟩ "" 0 0).map Prod.fst
      = some (some 3, true) := by decide

/-- Two further spec §8 scenarios the code does satisfy. -/
example :
    ((IndexedRules.new .Drop scenarioRules).isAcceptableE (fun _ => 0)
        (initState [] 0) .Input .Tcp ⟨.V4 16843009, 53⟩ "x" 100 0).map Prod.fst
      = some (some 0, true) ∧
    ((IndexedRules.new .Drop scenarioRules).isAcceptableE (fun _ => 0)
        (initState [] 0) .Output .Tcp ⟨.V4 16843009, 53⟩ "x" 100 0).map Prod.fst
      = some (none, false) := by
  exact ⟨by decide, by decide⟩

/-- C3 (code divergence, evaluated): `Bucket::bytes` RESETS the
accumulator while still inside the 500 ms window (here 100 ms after the
window start, `7 ↦ 0` with the window restarted) and KEEPS it once the
window has passed (here 1000 ms after the start, the stale `7` is
returned) — the exact inversion of the claimed reset condition. -/
theorem c3_window_reset_inverted :
    Bucket.readBytes { bytes := 7, timestamp := 0, limit := 1000 } 100
      = ({ bytes := 0, timestamp := 100, limit := 1000 }, 0) ∧
    Bucket.readBytes { bytes := 7, timestamp := 0, limit := 1000 } 1000
      = ({ bytes := 7, timestamp := 0, limit := 1000 }, 7) := by
  exact ⟨rfl, rfl⟩

/-- C4: `Bucket::stuff` succeeds exactly when `accumulated + size` is
strictly below the limit (equality fails), where `accumulated` is the
value the window-accounting read returns; on success the accumulator
becomes exactly `accumulated + size`, on failure it stays `accumulated`. -/
theorem c4_charge_strict_and_exact (b : Bucket) (size now : Nat) :
    (b.stuff size now).2 = decide ((b.readBytes now).2 + size < b.limit) ∧
    (b.stuff size now).1.bytes =
      (if (b.readBytes now).2 + size < b.limit
       then (b.readBytes now).2 + size
       else (b.readBytes now).2) := by
  unfold Bucket.stuff
  cases hr : b.readBytes now with
  | mk b1 v =>
    have hlim2 : b1.limit = b.limit := by
      have hx := Bucket.readBytes_limit b now
      rw [hr] at hx
      exact hx
    have hbytes2 : b1.bytes = v := by
      have hx := Bucket.readBytes_bytes b now
      rw [hr] at hx
      exact hx
    by_cases h : v + size < b.limit
    · simp [hr, hlim2, hbytes2, h]
    · simp [hr, hlim2, hbytes2, h]

/-- C1 (counterexample): under `shadowRules` the inbound udp packet to
1.1.1.1:7 fully matches rule 1 (1.0.0.0/8 wildcard-everything-else), so
the least matching index is 1; but the classifier returns
`(none, default drop)`: the longest-prefix lookup yields only rule 0's
/32 entry, that IP pair is the unique smallest candidate pair, and rule 0
fails the tcp check. -/
theorem c1_counterexample :
    (IndexedRules.new .Drop shadowRules).matchTargetE
        .Input .Udp ⟨.V4 16843009, 7⟩ "x" = some (none, .Drop) ∧
    specMatch shadowRules .Drop .Input .Udp ⟨.V4 16843009, 7⟩ "x"
      = (some 1, .Accept) ∧
    ((none, RuleTarget.Drop) : Option Nat × RuleTarget) ≠ (some 1, .Accept) := by
  exact ⟨by decide, by decide, by decide⟩

/-- C2 (counterexample): under the five-rule scenario policy the packet
`(in, udp, 2.2.2.3:100, payload 10, exe "")` is NOT classified as
`(some 4, true)`. -/
theorem c2_counterexample :
    ((IndexedRules.new .Drop scenarioRules).isAcceptableE (fun _ => 0)
        (initState [] 0) .Input .Udp ⟨.V4 33686019, 100⟩ "" 10 0).map Prod.fst
      ≠ some (some 4, true) := by decide

/-- C2 (amended): that packet classifies to `(none, false)`: the
longest-prefix lookup returns only rule 2's /30 entry, the IP pair
`([2], [])` is the unique minimum-sum pair, rule 2 fails the tcp check,
so no candidate survives and the default drop applies — rule 4, though a
full match, is shadowed. -/
theorem c2_shadowed_default_drop :
    ∀ hashFn : CacheKey → Nat,
    ((IndexedRules.new .Drop scenarioRules).isAcceptableE hashFn (initState [] 0)
        .Input .Udp ⟨.V4 33686019, 100⟩ "" 10 0).map Prod.fst
      = some (none, false) := by
  intro hashFn
  rfl

/-- C6: for every sequence of decoded kernel diag response messages, the
result of `SockDiag::query`'s response processing is exactly the LAST
message whose src-ip, src-port, dst-ip, dst-port equal the queried
addresses and whose inode is nonzero; when no message satisfies all five
conditions the query fails with `NotFound`. -/
theorem c6_query_keeps_last_retained (laddr raddr : SocketAddr)
    (msgs : List InetDiagMsg) :
    SockDiag.queryResult laddr raddr msgs =
      match (msgs.filter (diagRetains laddr raddr)).getLast? with
      | some m => .ok m
      | none => .error .NotFound := by
  unfold SockDiag.queryResult
  induction msgs using List.reverseRecOn with
  | nil => rfl
  | append_singleton xs x ih =>
    rw [List.filter_append, List.foldl_append]
    by_cases h : diagRetains laddr raddr x
    · simp [h, List.getLast?_concat]
    · simp [h]
      simpa using ih

/-- C9 (code divergence, evaluated): a rule with port range up to 65535
gets the half-open interval `[100, (65535 + 1) mod 2^16) = [100, 0)` —
`u16` overflow — so `query_point` misses the rule at EVERY port of its
range (65535 and 200 shown); under overflow checks the construction
panics instead. -/
theorem c9_top_port_interval_overflow :
    (IndexedRules.new .Drop topPortRules).port = [((100, 0), 0)] ∧
    queryPoint (IndexedRules.new .Drop topPortRules).port 65535 = [] ∧
    queryPoint (IndexedRules.new .Drop topPortRules).port 200 = [] := by
  exact ⟨by decide, by decide, by decide⟩

theorem decodeDevice_total (d : Nat) (hd : d ≤ 2) : ∃ x, decodeDevice d = some x := by
  interval_cases d <;> exact ⟨_, rfl⟩

theorem decodeProto_total (p : Nat) (hp : p ≤ 3) : ∃ x, decodeProto p = some x := by
  interval_cases p <;> exact ⟨_, rfl⟩

theorem tryToRule_isSome (q : QRule) (hd : q.device ≤ 2) (hp : q.proto ≤ 3) :
    ∃ v, q.tryToRule = some v := by
  obtain ⟨dv, hdv⟩ := decodeDevice_total q.device hd
  obtain ⟨pv, hpv⟩ := decodeProto_total q.proto hp
  unfold QRule.tryToRule
  rw [hdv, hpv]
  exact ⟨_, rfl⟩

theorem tryToRule_error_iff (q : QRule) (hd : q.device ≤ 2) (hp : q.proto ≤ 3) :
    (∃ e, q.tryToRule = some (.error e)) ↔
      (q.port_end ≠ 0 ∧ q.port_begin > q.port_end) ∨ q.addr = QAddr.bad := by
  obtain ⟨dv, hdv⟩ := decodeDevice_total q.device hd
  obtain ⟨pv, hpv⟩ := decodeProto_total q.proto hp
  obtain ⟨d, p, ex, pb, pe, ad, mk, tg⟩ := q
  unfold QRule.tryToRule
  rw [hdv, hpv]
  cases ad with
  | empty =>
    cases pe with
    | zero => cases pb <;> simp
    | succ m =>
      by_cases hgt : pb > m + 1
      · simp [hgt]
      · simp [hgt]
  | bad =>
    cases pe with
    | zero => cases pb <;> simp
    | succ m =>
      by_cases hgt : pb > m + 1
      · simp [hgt]
      · simp [hgt]
  | ip a =>
    cases pe with
    | zero => cases pb <;> simp
    | succ m =>
      by_cases hgt : pb > m + 1
      · simp [hgt]
      · simp [hgt]

theorem collectRules_error (qrules : List QRule)
    (hall : ∀ p ∈ qrules, p.device ≤ 2 ∧ p.proto ≤ 3)
    (q : QRule) (e : InvalidQRule) (hq : q ∈ qrules)
    (he : q.tryToRule = some (.error e)) :
    ∃ e2, collectRules qrules = some (.error e2) := by
  induction qrules with
  | nil => cases hq
  | cons x rest ih =>
    cases hq with
    | head =>
      refine ⟨e, ?_⟩
      simp only [collectRules, he]
    | tail _ hq =>
      obtain ⟨hx2, hx3⟩ := hall x (List.mem_cons_self _ _)
      obtain ⟨v, hv⟩ := tryToRule_isSome x hx2 hx3
      cases v with
      | error e2 =>
        refine ⟨e2, ?_⟩
        simp only [collectRules, hv]
      | ok r =>
        obtain ⟨e2, h2⟩ := ih (fun p2 hp2 => hall p2 (List.mem_cons_of_mem _ hp2)) hq
        refine ⟨e2, ?_⟩
        simp only [collectRules, hv, h2]

/-- C8 (counterexample): ingress does NOT reject every out-of-range mask
or every inverted port range: a v4 rule with mask length 33 converts
successfully with the mask passed through unchecked, and port
`(begin, end) = (5, 0)` — begin > end — is silently converted to the
single port 5 instead of being rejected. -/
theorem c8_mask_and_zero_end_pass_ingress :
    QRule.tryToRule ⟨0, 0, "", 0, 0, .ip (.V4 16843009), 33, 0⟩
      = some (.ok { device := none, proto := none, exe := none, port := none,
                    subnet := some (.V4 16843009, 33), target := .Accept }) ∧
    QRule.tryToRule ⟨0, 0, "", 5, 0, .empty, 0, 0⟩
      = some (.ok { device := none, proto := none, exe := none, port := some (5, 5),
                    subnet := none, target := .Accept }) := by
  exact ⟨rfl, rfl⟩

/-- C8 (amended): for decodable GUI rules, policy ingress rejects with a
validation error exactly the rules whose port range has begin > end with
end ≠ 0 (end = 0 means "the single port begin") or whose address text
fails to parse — subnet mask lengths are never validated — and when any
rule of the batch is rejected, `apply_rules` emits the error and sends
nothing to the daemon, so the prior policy remains active. -/
theorem c8_ingress_validation :
    (∀ q : QRule, q.device ≤ 2 → q.proto ≤ 3 →
      ((∃ e, q.tryToRule = some (.error e)) ↔
        (q.port_end ≠ 0 ∧ q.port_begin > q.port_end) ∨ q.addr = QAddr.bad)) ∧
    (∀ (qrules : List QRule) (dt : Nat) (rl : List Nat) (q : QRule) (e : InvalidQRule),
      (∀ p ∈ qrules, p.device ≤ 2 ∧ p.proto ≤ 3) → q ∈ qrules →
      q.tryToRule = some (.error e) →
      Backend.applyRules qrules dt rl = some none) := by
  constructor
  · exact tryToRule_error_iff
  · intro qrules dt rl q e hall hq he
    obtain ⟨e2, h2⟩ := collectRules_error qrules hall q e hq he
    simp only [Backend.applyRules, h2]

/-- Witness for C8: a one-rule batch with inverted port range (5, 3)
really is rejected wholesale — nothing is sent. -/
theorem c8_ingress_validation_witness :
    Backend.applyRules [⟨0, 0, "", 5, 3, .empty, 0, 0⟩] 1 [] = some none :=
  c8_ingress_validation.2 [⟨0, 0, "", 5, 3, .empty, 0, 0⟩] 1 []
    ⟨0, 0, "", 5, 3, .empty, 0, 0⟩ (.PortRange 5 3)
    (by decide) (by decide) rfl


theorem new_eq_buildFold (dt : RuleTarget) (rules : List Rule) :
    IndexedRules.new dt rules =
      buildFold
        { device := [], any_device := [], proto := [], any_proto := []
          exe := [], any_exe := [], v4_table := [], any_v4 := []
          v6_table := [], any_v6 := [], port := [], any_port := []
          raw := rules, default_target := dt } rules.enum := rfl

theorem lookupIdx_insertIdx_self {K : Type} [DecidableEq K]
    (m : List (K × List Nat)) (k : K) (i : Nat) :
    (lookupIdx (insertIdx m k i) k).getD [] = (lookupIdx m k).getD [] ++ [i] := by
  induction m with
  | nil => simp [insertIdx, lookupIdx]
  | cons kv rest ih =>
    obtain ⟨k', v⟩ := kv
    by_cases h : k = k'
    · subst h
      simp [insertIdx, lookupIdx]
    · simp [insertIdx, lookupIdx, h, Ne.symm h, ih]

theorem lookupIdx_insertIdx_ne {K : Type} [DecidableEq K]
    (m : List (K × List Nat)) (k k2 : K) (i : Nat) (h : k2 ≠ k) :
    lookupIdx (insertIdx m k i) k2 = lookupIdx m k2 := by
  induction m with
  | nil => simp [insertIdx, lookupIdx, h]
  | cons kv rest ih =>
    obtain ⟨k', v⟩ := kv
    by_cases hk : k = k'
    · subst hk
      simp [insertIdx, lookupIdx, h]
    · by_cases hk2 : k2 = k'
      · subst hk2
        simp [insertIdx, lookupIdx, hk]
      · simp [insertIdx, lookupIdx, hk, hk2, ih]

theorem insertRuleStep_eq (acc : IndexedRules) (i : Nat) (rule : Rule) :
    insertRuleStep acc i rule =
      { device :=
          match rule.device with
          | some k => insertIdx acc.device k i
          | none => acc.device
        any_device :=
          match rule.device with
          | some _ => acc.any_device
          | none => acc.any_device ++ [i]
        proto :=
          match rule.proto with
          | some k => insertIdx acc.proto k i
          | none => acc.proto
        any_proto :=
          match rule.proto with
          | some _ => acc.any_proto
          | none => acc.any_proto ++ [i]
        exe :=
          match rule.exe with
          | some k => insertIdx acc.exe k i
          | none => acc.exe
        any_exe :=
          match rule.exe with
          | some _ => acc.any_exe
          | none => acc.any_exe ++ [i]
        v4_table :=
          match v4Key rule with
          | some k => insertIdx acc.v4_table k i
          | none => acc.v4_table
        any_v4 :=
          match rule.subnet with
          | some _ => acc.any_v4
          | none => acc.any_v4 ++ [i]
        v6_table :=
          match v6Key rule with
          | some k => insertIdx acc.v6_table k i
          | none => acc.v6_table
        any_v6 :=
          match rule.subnet with
          | some _ => acc.any_v6
          | none => acc.any_v6 ++ [i]
        port :=
          match rule.port with
          | some se => acc.port ++ [((se.1, (se.2 + 1) % 65536), i)]
          | none => acc.port
        any_port :=
          match rule.port with
          | some _ => acc.any_port
          | none => acc.any_port ++ [i]
        raw := acc.raw
        default_target := acc.default_target } := by
  rcases rule with ⟨dev, pr, ex, po, su, tg⟩
  rcases dev with _ | dev <;> rcases pr with _ | pr <;> rcases ex with _ | ex <;>
    rcases po with _ | po <;> rcases su with _ | ⟨a | a, m⟩ <;>
    simp [insertRuleStep, v4Key, v6Key]

theorem buildFold_raw (el : List (Nat × Rule)) :
    ∀ acc : IndexedRules, (buildFold acc el).raw = acc.raw := by
  induction el with
  | nil => intro acc; rfl
  | cons q el ih =>
    intro acc
    rw [show buildFold acc (q :: el) = buildFold (insertRuleStep acc q.1 q.2) el from rfl,
      ih, insertRuleStep_eq]

theorem buildFold_default_target (el : List (Nat × Rule)) :
    ∀ acc : IndexedRules, (buildFold acc el).default_target = acc.default_target := by
  induction el with
  | nil => intro acc; rfl
  | cons q el ih =>
    intro acc
    rw [show buildFold acc (q :: el) = buildFold (insertRuleStep acc q.1 q.2) el from rfl,
      ih, insertRuleStep_eq]

theorem buildFold_any_device (el : List (Nat × Rule)) :
    ∀ acc : IndexedRules, (buildFold acc el).any_device
      = acc.any_device ++ selIdxs (fun r => r.device.isNone) el := by
  induction el with
  | nil => intro acc; simp [buildFold, selIdxs]
  | cons q el ih =>
    intro acc
    obtain ⟨i, r⟩ := q
    rw [show buildFold acc ((i, r) :: el) = buildFold (insertRuleStep acc i r) el from rfl,
      ih, insertRuleStep_eq]
    cases hd : r.device with
    | none => simp [selIdxs, hd]
    | some k => simp [selIdxs, hd]

theorem buildFold_any_proto (el : List (Nat × Rule)) :
    ∀ acc : IndexedRules, (buildFold acc el).any_proto
      = acc.any_proto ++ selIdxs (fun r => r.proto.isNone) el := by
  induction el with
  | nil => intro acc; simp [buildFold, selIdxs]
  | cons q el ih =>
    intro acc
    obtain ⟨i, r⟩ := q
    rw [show buildFold acc ((i, r) :: el) = buildFold (insertRuleStep acc i r) el from rfl,
      ih, insertRuleStep_eq]
    cases hd : r.proto with
    | none => simp [selIdxs, hd]
    | some k => simp [selIdxs, hd]

theorem buildFold_any_exe (el : List (Nat × Rule)) :
    ∀ acc : IndexedRules, (buildFold acc el).any_exe
      = acc.any_exe ++ selIdxs (fun r => r.exe.isNone) el := by
  induction el with
  | nil => intro acc; simp [buildFold, selIdxs]
  | cons q el ih =>
    intro acc
    obtain ⟨i, r⟩ := q
    rw [show buildFold acc ((i, r) :: el) = buildFold (insertRuleStep acc i r) el from rfl,
      ih, insertRuleStep_eq]
    cases hd : r.exe with
    | none => simp [selIdxs, hd]
    | some k => simp [selIdxs, hd]

theorem buildFold_any_port (el : List (Nat × Rule)) :
    ∀ acc : IndexedRules, (buildFold acc el).any_port
      = acc.any_port ++ selIdxs (fun r => r.port.isNone) el := by
  induction el with
  | nil => intro acc; simp [buildFold, selIdxs]
  | cons q el ih =>
    intro acc
    obtain ⟨i, r⟩ := q
    rw [show buildFold acc ((i, r) :: el) = buildFold (insertRuleStep acc i r) el from rfl,
      ih, insertRuleStep_eq]
    cases hd : r.port with
    | none => simp [selIdxs, hd]
    | some k => simp [selIdxs, hd]

theorem buildFold_any_v4 (el : List (Nat × Rule)) :
    ∀ acc : IndexedRules, (buildFold acc el).any_v4
      = acc.any_v4 ++ selIdxs (fun r => r.subnet.isNone) el := by
  induction el with
  | nil => intro acc; simp [buildFold, selIdxs]
  | cons q el ih =>
    intro acc
    obtain ⟨i, r⟩ := q
    rw [show buildFold acc ((i, r) :: el) = buildFold (insertRuleStep acc i r) el from rfl,
      ih, insertRuleStep_eq]
    cases hd : r.subnet with
    | none => simp [selIdxs, hd]
    | some k => simp [selIdxs, hd]

theorem buildFold_any_v6 (el : List (Nat × Rule)) :
    ∀ acc : IndexedRules, (buildFold acc el).any_v6
      = acc.any_v6 ++ selIdxs (fun r => r.subnet.isNone) el := by
  induction el with
  | nil => intro acc; simp [buildFold, selIdxs]
  | cons q el ih =>
    intro acc
    obtain ⟨i, r⟩ := q
    rw [show buildFold acc ((i, r) :: el) = buildFold (insertRuleStep acc i r) el from rfl,
      ih, insertRuleStep_eq]
    cases hd : r.subnet with
    | none => simp [selIdxs, hd]
    | some k => simp [selIdxs, hd]

theorem buildFold_port (el : List (Nat × Rule)) :
    ∀ acc : IndexedRules, (buildFold acc el).port = acc.port ++ portEntries el := by
  induction el with
  | nil => intro acc; simp [buildFold, portEntries]
  | cons q el ih =>
    intro acc
    obtain ⟨i, r⟩ := q
    rw [show buildFold acc ((i, r) :: el) = buildFold (insertRuleStep acc i r) el from rfl,
      ih, insertRuleStep_eq]
    cases hd : r.port with
    | none => simp [portEntries, hd]
    | some k => simp [portEntries, hd]

theorem buildFold_device (el : List (Nat × Rule)) :
    ∀ (acc : IndexedRules) (k : Device),
      (lookupIdx (buildFold acc el).device k).getD []
        = (lookupIdx acc.device k).getD [] ++ selIdxs (fun r => r.device == some k) el := by
  induction el with
  | nil => intro acc k; simp [buildFold, selIdxs]
  | cons q el ih =>
    intro acc k
    obtain ⟨i, r⟩ := q
    rw [show buildFold acc ((i, r) :: el) = buildFold (insertRuleStep acc i r) el from rfl,
      ih, insertRuleStep_eq]
    cases hd : r.device with
    | none => simp [selIdxs, hd]
    | some k2 =>
      by_cases hk : k2 = k
      · subst hk
        simp [selIdxs, hd, lookupIdx_insertIdx_self]
      · simp [selIdxs, hd, hk, lookupIdx_insertIdx_ne _ _ _ _ (Ne.symm hk)]

theorem buildFold_proto (el : List (Nat × Rule)) :
    ∀ (acc : IndexedRules) (k : Proto),
      (lookupIdx (buildFold acc el).proto k).getD []
        = (lookupIdx acc.proto k).getD [] ++ selIdxs (fun r => r.proto == some k) el := by
  induction el with
  | nil => intro acc k; simp [buildFold, selIdxs]
  | cons q el ih =>
    intro acc k
    obtain ⟨i, r⟩ := q
    rw [show buildFold acc ((i, r) :: el) = buildFold (insertRuleStep acc i r) el from rfl,
      ih, insertRuleStep_eq]
    cases hd : r.proto with
    | none => simp [selIdxs, hd]
    | some k2 =>
      by_cases hk : k2 = k
      · subst hk
        simp [selIdxs, hd, lookupIdx_insertIdx_self]
      · simp [selIdxs, hd, hk, lookupIdx_insertIdx_ne _ _ _ _ (Ne.symm hk)]

theorem buildFold_exe (el : List (Nat × Rule)) :
    ∀ (acc : IndexedRules) (k : String),
      (lookupIdx (buildFold acc el).exe k).getD []
        = (lookupIdx acc.exe k).getD [] ++ selIdxs (fun r => r.exe == some k) el := by
  induction el with
  | nil => intro acc k; simp [buildFold, selIdxs]
  | cons q el ih =>
    intro acc k
    obtain ⟨i, r⟩ := q
    rw [show buildFold acc ((i, r) :: el) = buildFold (insertRuleStep acc i r) el from rfl,
      ih, insertRuleStep_eq]
    cases hd : r.exe with
    | none => simp [selIdxs, hd]
    | some k2 =>
      by_cases hk : k2 = k
      · subst hk
        simp [selIdxs, hd, lookupIdx_insertIdx_self]
      · simp [selIdxs, hd, hk, lookupIdx_insertIdx_ne _ _ _ _ (Ne.symm hk)]

theorem buildFold_v4 (el : List (Nat × Rule)) :
    ∀ (acc : IndexedRules) (k : Nat × Nat),
      (lookupIdx (buildFold acc el).v4_table k).getD []
        = (lookupIdx acc.v4_table k).getD [] ++ selIdxs (fun r => v4Key r == some k) el := by
  induction el with
  | nil => intro acc k; simp [buildFold, selIdxs]
  | cons q el ih =>
    intro acc k
    obtain ⟨i, r⟩ := q
    rw [show buildFold acc ((i, r) :: el) = buildFold (insertRuleStep acc i r) el from rfl,
      ih, insertRuleStep_eq]
    cases hd : v4Key r with
    | none => simp [selIdxs, hd]
    | some k2 =>
      by_cases hk : k2 = k
      · subst hk
        simp [selIdxs, hd, lookupIdx_insertIdx_self]
      · simp [selIdxs, hd, hk, lookupIdx_insertIdx_ne _ _ _ _ (Ne.symm hk)]

theorem buildFold_v6 (el : List (Nat × Rule)) :
    ∀ (acc : IndexedRules) (k : Nat × Nat),
      (lookupIdx (buildFold acc el).v6_table k).getD []
        = (lookupIdx acc.v6_table k).getD [] ++ selIdxs (fun r => v6Key r == some k) el := by
  induction el with
  | nil => intro acc k; simp [buildFold, selIdxs]
  | cons q el ih =>
    intro acc k
    obtain ⟨i, r⟩ := q
    rw [show buildFold acc ((i, r) :: el) = buildFold (insertRuleStep acc i r) el from rfl,
      ih, insertRuleStep_eq]
    cases hd : v6Key r with
    | none => simp [selIdxs, hd]
    | some k2 =>
      by_cases hk : k2 = k
      · subst hk
        simp [selIdxs, hd, lookupIdx_insertIdx_self]
      · simp [selIdxs, hd, hk, lookupIdx_insertIdx_ne _ _ _ _ (Ne.symm hk)]

theorem mem_selIdxs {p : Rule → Bool} {el : List (Nat × Rule)} {i : Nat} :
    i ∈ selIdxs p el ↔ ∃ r, (i, r) ∈ el ∧ p r = true := by
  simp only [selIdxs, List.mem_map, List.mem_filter]
  constructor
  · rintro ⟨⟨j, r⟩, ⟨hmem, hp⟩, rfl⟩
    exact ⟨r, hmem, hp⟩
  · rintro ⟨r, hmem, hp⟩
    exact ⟨(i, r), ⟨hmem, hp⟩, rfl⟩

theorem mem_enum_iff {rules : List Rule} {i : Nat} {r : Rule} :
    (i, r) ∈ rules.enum ↔ rules.get? i = some r := by
  simp [List.mk_mem_enum_iff_getElem?, List.get?_eq_getElem?]

theorem fst_lt_of_mem_enum {l : List Rule} {i : Nat} {r : Rule}
    (h : (i, r) ∈ l.enum) : i < l.length := by
  have h2 := mem_enum_iff.mp h
  have h3 := List.get?_eq_some.mp h2
  exact h3.1

theorem pairwise_fst_lt_enumFrom (l : List Rule) :
    ∀ n : Nat, (List.enumFrom n l).Pairwise (fun a b => a.1 < b.1) := by
  induction l with
  | nil => intro n; simp
  | cons x xs ih =>
    intro n
    refine List.Pairwise.cons ?_ (ih (n + 1))
    rintro ⟨j, r⟩ hq
    have hle := (List.mk_mem_enumFrom_iff_le_and_getElem?_sub.mp hq).1
    omega

theorem pairwise_selIdxs (p : Rule → Bool) (rules : List Rule) :
    (selIdxs p rules.enum).Pairwise (· < ·) := by
  rw [selIdxs, List.pairwise_map]
  exact (pairwise_fst_lt_enumFrom rules 0).filter _

theorem portEntries_snd (el : List (Nat × Rule)) :
    (portEntries el).map Prod.snd = selIdxs (fun r => r.port.isSome) el := by
  induction el with
  | nil => rfl
  | cons q el ih =>
    obtain ⟨i, r⟩ := q
    cases hd : r.port with
    | none => simp [portEntries, selIdxs, hd] at ih ⊢; exact ih
    | some se => simp [portEntries, selIdxs, hd] at ih ⊢; exact ih

theorem mem_portEntries {el : List (Nat × Rule)} {iv : Nat × Nat} {i : Nat} :
    (iv, i) ∈ portEntries el ↔
      ∃ r s e2, (i, r) ∈ el ∧ r.port = some (s, e2) ∧ iv = (s, (e2 + 1) % 65536) := by
  simp only [portEntries, List.mem_filterMap]
  constructor
  · rintro ⟨⟨j, r⟩, hmem, hf⟩
    cases hp : r.port with
    | none => rw [hp] at hf; cases hf
    | some se =>
      obtain ⟨s, e2⟩ := se
      rw [hp] at hf
      have hf3 : (((s, (e2 + 1) % 65536), j) : (Nat × Nat) × Nat) = (iv, i) :=
        Option.some.inj hf
      injection hf3 with h1 h2
      subst h2
      exact ⟨r, s, e2, hmem, hp, h1.symm⟩
  · rintro ⟨r, s, e2, hmem, hp, rfl⟩
    exact ⟨(i, r), hmem, by rw [hp]; rfl⟩

theorem keys_insertIdx {K : Type} [DecidableEq K]
    (m : List (K × List Nat)) (k : K) (i : Nat) :
    (insertIdx m k i).map Prod.fst
      = if k ∈ m.map Prod.fst then m.map Prod.fst else m.map Prod.fst ++ [k] := by
  induction m with
  | nil => simp [insertIdx]
  | cons kv rest ih =>
    obtain ⟨k3, v3⟩ := kv
    by_cases hk : k = k3
    · subst hk
      simp [insertIdx]
    · by_cases hmem : k ∈ rest.map Prod.fst
      · simp [insertIdx, hk, ih, hmem]
      · simp [insertIdx, hk, ih, hmem]

theorem keys_nodup_insertIdx {K : Type} [DecidableEq K]
    {m : List (K × List Nat)} {k : K} {i : Nat}
    (h : (m.map Prod.fst).Nodup) :
    ((insertIdx m k i).map Prod.fst).Nodup := by
  rw [keys_insertIdx]
  by_cases hmem : k ∈ m.map Prod.fst
  · simpa [hmem] using h
  · simp [hmem, List.nodup_append, h]

theorem lookupIdx_of_mem {K : Type} [DecidableEq K] :
    ∀ {m : List (K × List Nat)} {k : K} {v : List Nat},
      (m.map Prod.fst).Nodup → (k, v) ∈ m → lookupIdx m k = some v := by
  intro m
  induction m with
  | nil => intro k v _ hm; cases hm
  | cons kv rest ih =>
    intro k v hnd hm
    obtain ⟨k3, v3⟩ := kv
    rw [List.map_cons, List.nodup_cons] at hnd
    cases hm with
    | head => simp [lookupIdx]
    | tail _ hm =>
      have hne : k ≠ k3 := by
        intro he
        apply hnd.1
        rw [← he]
        have h4 := List.mem_map_of_mem (Prod.fst : K × List Nat → K) hm
        exact h4
      simp only [lookupIdx, if_neg hne]
      exact ih hnd.2 hm

theorem buildFold_v4_keys_nodup (el : List (Nat × Rule)) :
    ∀ acc : IndexedRules, (acc.v4_table.map Prod.fst).Nodup →
      ((buildFold acc el).v4_table.map Prod.fst).Nodup := by
  induction el with
  | nil => intro acc h; exact h
  | cons q el ih =>
    intro acc h
    obtain ⟨i, r⟩ := q
    rw [show buildFold acc ((i, r) :: el) = buildFold (insertRuleStep acc i r) el from rfl]
    apply ih
    rw [insertRuleStep_eq]
    cases hd : v4Key r with
    | none => simpa using h
    | some k => simpa using keys_nodup_insertIdx h

theorem buildFold_v6_keys_nodup (el : List (Nat × Rule)) :
    ∀ acc : IndexedRules, (acc.v6_table.map Prod.fst).Nodup →
      ((buildFold acc el).v6_table.map Prod.fst).Nodup := by
  induction el with
  | nil => intro acc h; exact h
  | cons q el ih =>
    intro acc h
    obtain ⟨i, r⟩ := q
    rw [show buildFold acc ((i, r) :: el) = buildFold (insertRuleStep acc i r) el from rfl]
    apply ih
    rw [insertRuleStep_eq]
    cases hd : v6Key r with
    | none => simpa using h
    | some k => simpa using keys_nodup_insertIdx h

theorem longestMatch_mem (w : Nat) (t : List ((Nat × Nat) × List Nat)) (a : Nat)
    (x : (Nat × Nat) × List Nat) (h : longestMatch w t a = some x) : x ∈ t := by
  unfold longestMatch at h
  suffices hgen : ∀ (t2 : List ((Nat × Nat) × List Nat))
      (init : Option ((Nat × Nat) × List Nat)),
      t2.foldl
        (fun best e =>
          if natMask w a e.1.2 = e.1.1 then
            match best with
            | none => some e
            | some b => if b.1.2 < e.1.2 then some e else some b
          else best)
        init = some x → x ∈ t2 ∨ init = some x by
    rcases hgen t none h with h2 | h2
    · exact h2
    · cases h2
  intro t2
  induction t2 with
  | nil =>
    intro init h2
    exact Or.inr h2
  | cons y ys ih =>
    intro init h2
    rw [List.foldl_cons] at h2
    rcases ih _ h2 with h3 | h3
    · exact Or.inl (List.mem_cons_of_mem _ h3)
    · by_cases hc : natMask w a y.1.2 = y.1.1
      · rw [if_pos hc] at h3
        cases init with
        | none =>
          refine Or.inl ?_
          have : y = x := Option.some.inj h3
          rw [this] at *
          exact List.mem_cons_self _ _
        | some b =>
          have h4 : (if b.1.2 < y.1.2 then some y else some b) = some x := h3
          by_cases hlt : b.1.2 < y.1.2
          · rw [if_pos hlt] at h4
            have : y = x := Option.some.inj h4
            exact Or.inl (this ▸ List.mem_cons_self _ _)
          · rw [if_neg hlt] at h4
            exact Or.inr h4
      · rw [if_neg hc] at h3
        exact Or.inr h3

theorem minPair_mem (x : List Nat × List Nat) (l : List (List Nat × List Nat)) :
    minPair (x :: l) ∈ x :: l := by
  unfold minPair
  suffices hgen : ∀ (l2 : List (List Nat × List Nat)) (init : List Nat × List Nat),
      l2.foldl
        (fun best q =>
          if q.1.length + q.2.length < best.1.length + best.2.length then q else best)
        init ∈ init :: l2 by
    exact hgen l x
  intro l2
  induction l2 with
  | nil => intro init; exact List.mem_cons_self _ _
  | cons y ys ih =>
    intro init
    rw [List.foldl_cons]
    by_cases hc : y.1.length + y.2.length < init.1.length + init.2.length
    · rw [if_pos hc]
      rcases List.mem_cons.mp (ih y) with h | h
      · rw [h]
        exact List.mem_cons_of_mem _ (List.mem_cons_self _ _)
      · exact List.mem_cons_of_mem _ (List.mem_cons_of_mem _ h)
    · rw [if_neg hc]
      rcases List.mem_cons.mp (ih init) with h | h
      · rw [h]
        exact List.mem_cons_self _ _
      · exact List.mem_cons_of_mem _ (List.mem_cons_of_mem _ h)

theorem minSurvivor_mem_and_min (l : List (Nat × RuleTarget)) :
    (minSurvivor l = none → l = []) ∧
    (∀ x, minSurvivor l = some x → x ∈ l ∧ ∀ q ∈ l, x.1 ≤ q.1) := by
  cases l with
  | nil =>
    refine ⟨fun _ => rfl, ?_⟩
    intro x h
    cases h
  | cons s rest =>
    constructor
    · intro h0
      simp [minSurvivor] at h0
    · intro x h
      unfold minSurvivor at h
      have hx := Option.some.inj h
      suffices hgen : ∀ (l2 : List (Nat × RuleTarget)) (init : Nat × RuleTarget),
          (l2.foldl (fun best q => if q.1 < best.1 then q else best) init) ∈ init :: l2 ∧
          (l2.foldl (fun best q => if q.1 < best.1 then q else best) init).1 ≤ init.1 ∧
          ∀ q ∈ l2, (l2.foldl (fun best q => if q.1 < best.1 then q else best) init).1 ≤ q.1 by
        obtain ⟨hmem, hinit, hall⟩ := hgen rest s
        rw [hx] at hmem hinit hall
        refine ⟨hmem, ?_⟩
        intro q hq
        rcases List.mem_cons.mp hq with h2 | h2
        · rw [h2]; exact hinit
        · exact hall q h2
      intro l2
      induction l2 with
      | nil =>
        intro init
        exact ⟨List.mem_cons_self _ _, Nat.le_refl _, fun q hq => by cases hq⟩
      | cons y ys ih =>
        intro init
        rw [List.foldl_cons]
        by_cases hc : y.1 < init.1
        · rw [if_pos hc]
          obtain ⟨hmem, hinit, hall⟩ := ih y
          refine ⟨?_, ?_, ?_⟩
          · rcases List.mem_cons.mp hmem with h2 | h2
            · rw [h2]
              exact List.mem_cons_of_mem _ (List.mem_cons_self _ _)
            · exact List.mem_cons_of_mem _ (List.mem_cons_of_mem _ h2)
          · exact Nat.le_trans hinit (Nat.le_of_lt hc)
          · intro q hq
            rcases List.mem_cons.mp hq with h2 | h2
            · rw [h2]; exact hinit
            · exact hall q h2
        · rw [if_neg hc]
          obtain ⟨hmem, hinit, hall⟩ := ih init
          refine ⟨?_, hinit, ?_⟩
          · rcases List.mem_cons.mp hmem with h2 | h2
            · rw [h2]
              exact List.mem_cons_self _ _
            · exact List.mem_cons_of_mem _ (List.mem_cons_of_mem _ h2)
          · intro q hq
            rcases List.mem_cons.mp hq with h2 | h2
            · rw [h2]
              exact Nat.le_trans hinit (Nat.le_of_not_lt hc)
            · exact hall q h2

theorem survivorsE_spec (raw : List Rule) (d : Device) (p : Proto)
    (a : SocketAddr) (e : String) :
    ∀ ids : List Nat, (∀ id ∈ ids, id < raw.length) →
      ∃ l, survivorsE raw d p a e ids = some l ∧
        (∀ q ∈ l, q.1 ∈ ids ∧ ∃ rule, raw.get? q.1 = some rule ∧
          rule.matches d p a e = true ∧ q.2 = rule.target) ∧
        (∀ id ∈ ids, matchesAt raw d p a e id = true → ∃ t, (id, t) ∈ l) := by
  intro ids
  induction ids with
  | nil =>
    intro _
    refine ⟨[], rfl, ?_, ?_⟩
    · intro q hq
      cases hq
    · intro id hid
      cases hid
  | cons id rest ih =>
    intro hb
    have hidlt : id < raw.length := hb id (List.mem_cons_self _ _)
    obtain ⟨rule, hrule⟩ : ∃ rule, raw.get? id = some rule := by
      cases hg : raw.get? id with
      | none =>
        rw [List.get?_eq_none] at hg
        omega
      | some rule => exact ⟨rule, rfl⟩
    obtain ⟨tl, htl, hsound, hcomp⟩ := ih (fun j hj => hb j (List.mem_cons_of_mem _ hj))
    by_cases hm : rule.matches d p a e
    · refine ⟨(id, rule.target) :: tl, ?_, ?_, ?_⟩
      · simp only [survivorsE, hrule, htl, Rule.matchTarget, if_pos hm]
      · rintro q hq
        rcases List.mem_cons.mp hq with h2 | h2
        · subst h2
          exact ⟨List.mem_cons_self _ _, rule, hrule, hm, rfl⟩
        · obtain ⟨hin, rule2, h3, h4, h5⟩ := hsound q h2
          exact ⟨List.mem_cons_of_mem _ hin, rule2, h3, h4, h5⟩
      · intro j hj hmj
        rcases List.mem_cons.mp hj with h2 | h2
        · subst h2
          exact ⟨rule.target, List.mem_cons_self _ _⟩
        · obtain ⟨t, ht⟩ := hcomp j h2 hmj
          exact ⟨t, List.mem_cons_of_mem _ ht⟩
    · refine ⟨tl, ?_, ?_, ?_⟩
      · simp only [survivorsE, hrule, htl, Rule.matchTarget, if_neg hm]
      · intro q hq
        obtain ⟨hin, rule2, h3, h4, h5⟩ := hsound q hq
        exact ⟨List.mem_cons_of_mem _ hin, rule2, h3, h4, h5⟩
      · intro j hj hmj
        rcases List.mem_cons.mp hj with h2 | h2
        · subst h2
          unfold matchesAt at hmj
          rw [hrule] at hmj
          exact absurd hmj (by simpa using hm)
        · exact hcomp j h2 hmj

theorem new_raw (dt : RuleTarget) (rules : List Rule) :
    (IndexedRules.new dt rules).raw = rules := by
  rw [new_eq_buildFold, buildFold_raw]

theorem new_default_target (dt : RuleTarget) (rules : List Rule) :
    (IndexedRules.new dt rules).default_target = dt := by
  rw [new_eq_buildFold, buildFold_default_target]

theorem new_any_device (dt : RuleTarget) (rules : List Rule) :
    (IndexedRules.new dt rules).any_device
      = selIdxs (fun r => r.device.isNone) rules.enum := by
  rw [new_eq_buildFold, buildFold_any_device]
  rfl

theorem new_any_proto (dt : RuleTarget) (rules : List Rule) :
    (IndexedRules.new dt rules).any_proto
      = selIdxs (fun r => r.proto.isNone) rules.enum := by
  rw [new_eq_buildFold, buildFold_any_proto]
  rfl

theorem new_any_exe (dt : RuleTarget) (rules : List Rule) :
    (IndexedRules.new dt rules).any_exe
      = selIdxs (fun r => r.exe.isNone) rules.enum := by
  rw [new_eq_buildFold, buildFold_any_exe]
  rfl

theorem new_any_port (dt : RuleTarget) (rules : List Rule) :
    (IndexedRules.new dt rules).any_port
      = selIdxs (fun r => r.port.isNone) rules.enum := by
  rw [new_eq_buildFold, buildFold_any_port]
  rfl

theorem new_any_v4 (dt : RuleTarget) (rules : List Rule) :
    (IndexedRules.new dt rules).any_v4
      = selIdxs (fun r => r.subnet.isNone) rules.enum := by
  rw [new_eq_buildFold, buildFold_any_v4]
  rfl

theorem new_any_v6 (dt : RuleTarget) (rules : List Rule) :
    (IndexedRules.new dt rules).any_v6
      = selIdxs (fun r => r.subnet.isNone) rules.enum := by
  rw [new_eq_buildFold, buildFold_any_v6]
  rfl

theorem new_port (dt : RuleTarget) (rules : List Rule) :
    (IndexedRules.new dt rules).port = portEntries rules.enum := by
  rw [new_eq_buildFold, buildFold_port]
  rfl

theorem new_device_lookup (dt : RuleTarget) (rules : List Rule) (k : Device) :
    (lookupIdx (IndexedRules.new dt rules).device k).getD []
      = selIdxs (fun r => r.device == some k) rules.enum := by
  rw [new_eq_buildFold, buildFold_device]
  rfl

theorem new_proto_lookup (dt : RuleTarget) (rules : List Rule) (k : Proto) :
    (lookupIdx (IndexedRules.new dt rules).proto k).getD []
      = selIdxs (fun r => r.proto == some k) rules.enum := by
  rw [new_eq_buildFold, buildFold_proto]
  rfl

theorem new_exe_lookup (dt : RuleTarget) (rules : List Rule) (k : String) :
    (lookupIdx (IndexedRules.new dt rules).exe k).getD []
      = selIdxs (fun r => r.exe == some k) rules.enum := by
  rw [new_eq_buildFold, buildFold_exe]
  rfl

theorem new_v4_lookup (dt : RuleTarget) (rules : List Rule) (k : Nat × Nat) :
    (lookupIdx (IndexedRules.new dt rules).v4_table k).getD []
      = selIdxs (fun r => v4Key r == some k) rules.enum := by
  rw [new_eq_buildFold, buildFold_v4]
  rfl

theorem new_v6_lookup (dt : RuleTarget) (rules : List Rule) (k : Nat × Nat) :
    (lookupIdx (IndexedRules.new dt rules).v6_table k).getD []
      = selIdxs (fun r => v6Key r == some k) rules.enum := by
  rw [new_eq_buildFold, buildFold_v6]
  rfl

theorem selIdxs_enum_lt {p : Rule → Bool} {rules : List Rule} :
    ∀ i ∈ selIdxs p rules.enum, i < rules.length := by
  intro i hi
  obtain ⟨r, hm, _⟩ := mem_selIdxs.mp hi
  exact fst_lt_of_mem_enum hm

theorem new_v4_values_lt (dt : RuleTarget) (rules : List Rule) :
    ∀ kv ∈ (IndexedRules.new dt rules).v4_table, ∀ i ∈ kv.2, i < rules.length := by
  intro kv hkv i hi
  have hnd : (((IndexedRules.new dt rules).v4_table).map Prod.fst).Nodup := by
    rw [new_eq_buildFold]
    exact buildFold_v4_keys_nodup _ _ (by simp)
  obtain ⟨k, v⟩ := kv
  have hl := lookupIdx_of_mem hnd hkv
  have hc := new_v4_lookup dt rules k
  rw [hl] at hc
  apply selIdxs_enum_lt i
  rw [← hc]
  simpa using hi

theorem new_v6_values_lt (dt : RuleTarget) (rules : List Rule) :
    ∀ kv ∈ (IndexedRules.new dt rules).v6_table, ∀ i ∈ kv.2, i < rules.length := by
  intro kv hkv i hi
  have hnd : (((IndexedRules.new dt rules).v6_table).map Prod.fst).Nodup := by
    rw [new_eq_buildFold]
    exact buildFold_v6_keys_nodup _ _ (by simp)
  obtain ⟨k, v⟩ := kv
  have hl := lookupIdx_of_mem hnd hkv
  have hc := new_v6_lookup dt rules k
  rw [hl] at hc
  apply selIdxs_enum_lt i
  rw [← hc]
  simpa using hi

theorem queryPoint_lt (dt : RuleTarget) (rules : List Rule) (pt : Nat) :
    ∀ i ∈ queryPoint (IndexedRules.new dt rules).port pt, i < rules.length := by
  intro i hi
  unfold queryPoint at hi
  obtain ⟨en, hen, hsnd⟩ := List.mem_map.mp hi
  have hmem : en ∈ (IndexedRules.new dt rules).port := List.mem_of_mem_filter hen
  have hsnd2 : i ∈ ((IndexedRules.new dt rules).port).map Prod.snd := by
    rw [← hsnd]
    exact List.mem_map_of_mem Prod.snd hmem
  rw [new_port, portEntries_snd] at hsnd2
  exact selIdxs_enum_lt i hsnd2

theorem minPair_mem_ne (l : List (List Nat × List Nat)) (h : l ≠ []) :
    minPair l ∈ l := by
  cases l with
  | nil => exact absurd rfl h
  | cons x xs => exact minPair_mem x xs

theorem pool_lt (dt : RuleTarget) (rules : List Rule) (d : Device) (p : Proto)
    (a : SocketAddr) (e : String) :
    ∀ i ∈ (IndexedRules.new dt rules).pool d p a e, i < rules.length := by
  intro i hi
  unfold IndexedRules.pool at hi
  have hpairmem : minPair ((IndexedRules.new dt rules).pairs d p a e)
      ∈ (IndexedRules.new dt rules).pairs d p a e :=
    minPair_mem_ne _ (by unfold IndexedRules.pairs; exact List.cons_ne_nil _ _)
  have hbound : ∀ pr ∈ (IndexedRules.new dt rules).pairs d p a e,
      (∀ j ∈ pr.1, j < rules.length) ∧ (∀ j ∈ pr.2, j < rules.length) := by
    intro pr hpr
    unfold IndexedRules.pairs at hpr
    simp only [List.mem_cons, List.not_mem_nil, or_false] at hpr
    rcases hpr with h1 | h1 | h1 | h1 | h1
    · rw [h1]
      dsimp only
      constructor
      · intro j hj
        rw [new_device_lookup] at hj
        exact selIdxs_enum_lt j hj
      · intro j hj
        rw [new_any_device] at hj
        exact selIdxs_enum_lt j hj
    · rw [h1]
      dsimp only
      constructor
      · intro j hj
        rw [new_proto_lookup] at hj
        exact selIdxs_enum_lt j hj
      · intro j hj
        rw [new_any_proto] at hj
        exact selIdxs_enum_lt j hj
    · rw [h1]
      dsimp only
      constructor
      · intro j hj
        rw [new_exe_lookup] at hj
        exact selIdxs_enum_lt j hj
      · intro j hj
        rw [new_any_exe] at hj
        exact selIdxs_enum_lt j hj
    · rw [h1]
      dsimp only
      constructor
      · intro j hj
        exact queryPoint_lt dt rules a.port j hj
      · intro j hj
        rw [new_any_port] at hj
        exact selIdxs_enum_lt j hj
    · cases hip : a.ip with
      | V4 a4 =>
        rw [hip] at h1
        rw [h1]
        dsimp only
        constructor
        · intro j hj
          cases hlm : longestMatch 32 (IndexedRules.new dt rules).v4_table a4 with
          | none => rw [hlm] at hj; cases hj
          | some x =>
            rw [hlm] at hj
            simp only [Option.map_some', Option.getD_some] at hj
            exact new_v4_values_lt dt rules x (longestMatch_mem _ _ _ _ hlm) j hj
        · intro j hj
          rw [new_any_v4] at hj
          exact selIdxs_enum_lt j hj
      | V6 a6 =>
        rw [hip] at h1
        rw [h1]
        dsimp only
        constructor
        · intro j hj
          cases hlm : longestMatch 128 (IndexedRules.new dt rules).v6_table a6 with
          | none => rw [hlm] at hj; cases hj
          | some x =>
            rw [hlm] at hj
            simp only [Option.map_some', Option.getD_some] at hj
            exact new_v6_values_lt dt rules x (longestMatch_mem _ _ _ _ hlm) j hj
        · intro j hj
          rw [new_any_v6] at hj
          exact selIdxs_enum_lt j hj
  obtain ⟨hb1, hb2⟩ := hbound _ hpairmem
  rcases List.mem_append.mp hi with h | h
  · exact hb1 i h
  · exact hb2 i h

theorem matchTargetE_spec (dt : RuleTarget) (rules : List Rule) (d : Device)
    (p : Proto) (a : SocketAddr) (e : String) :
    ∃ res, (IndexedRules.new dt rules).matchTargetE d p a e = some res ∧
      ((res.1 = none ∧ res.2 = dt ∧
          ∀ id ∈ (IndexedRules.new dt rules).pool d p a e,
            matchesAt rules d p a e id = false) ∨
       (∃ id rule, res.1 = some id ∧
          id ∈ (IndexedRules.new dt rules).pool d p a e ∧
          rules.get? id = some rule ∧ rule.matches d p a e = true ∧
          res.2 = rule.target ∧
          ∀ j ∈ (IndexedRules.new dt rules).pool d p a e,
            matchesAt rules d p a e j = true → id ≤ j)) := by
  have hb : ∀ id ∈ (IndexedRules.new dt rules).pool d p a e,
      id < ((IndexedRules.new dt rules).raw).length := by
    rw [new_raw]
    exact pool_lt dt rules d p a e
  obtain ⟨l, hl, hsound, hcomp⟩ :=
    survivorsE_spec ((IndexedRules.new dt rules).raw) d p a e
      ((IndexedRules.new dt rules).pool d p a e) hb
  unfold IndexedRules.matchTargetE
  cases hmin : minSurvivor l with
  | none =>
    have hnil : l = [] := (minSurvivor_mem_and_min l).1 hmin
    refine ⟨(none, (IndexedRules.new dt rules).default_target),
      by simp only [hl, hmin], Or.inl ?_⟩
    refine ⟨rfl, by rw [new_default_target], ?_⟩
    intro id hid
    cases hmt : matchesAt rules d p a e id with
    | false => rfl
    | true =>
      have hmt2 : matchesAt ((IndexedRules.new dt rules).raw) d p a e id = true := by
        rwa [new_raw]
      obtain ⟨t, ht⟩ := hcomp id hid hmt2
      rw [hnil] at ht
      cases ht
  | some q =>
    obtain ⟨qid, qt⟩ := q
    obtain ⟨hmem, hminall⟩ := (minSurvivor_mem_and_min l).2 _ hmin
    obtain ⟨hin, rule, hget, hmatch, htgt⟩ := hsound _ hmem
    refine ⟨(some qid, qt), by simp only [hl, hmin], Or.inr ?_⟩
    refine ⟨qid, rule, rfl, hin, by rwa [new_raw] at hget, hmatch, htgt, ?_⟩
    intro j hj hmj
    have hmj2 : matchesAt ((IndexedRules.new dt rules).raw) d p a e j = true := by
      rwa [new_raw]
    obtain ⟨t2, ht2⟩ := hcomp j hj hmj2
    exact hminall (j, t2) ht2

theorem firstMatchIdx_some_matches {pr : Rule → Bool} :
    ∀ {rules : List Rule} {i : Nat}, firstMatchIdx pr rules = some i →
      ∃ r, rules.get? i = some r ∧ pr r = true := by
  intro rules
  induction rules with
  | nil => intro i h; cases h
  | cons x rest ih =>
    intro i h
    unfold firstMatchIdx at h
    by_cases hx : pr x
    · rw [if_pos hx] at h
      cases Option.some.inj h
      exact ⟨x, rfl, hx⟩
    · rw [if_neg hx] at h
      cases hrest : firstMatchIdx pr rest with
      | none => rw [hrest] at h; cases h
      | some i2 =>
        rw [hrest] at h
        have : i2 + 1 = i := Option.some.inj h
        obtain ⟨r, hr, hpr⟩ := ih hrest
        refine ⟨r, ?_, hpr⟩
        rw [← this]
        simpa using hr

theorem firstMatchIdx_none_no_match {pr : Rule → Bool} :
    ∀ {rules : List Rule}, firstMatchIdx pr rules = none →
      ∀ i r, rules.get? i = some r → pr r = false := by
  intro rules
  induction rules with
  | nil =>
    intro _ i r hg
    cases hg
  | cons x rest ih =>
    intro h i r hg
    unfold firstMatchIdx at h
    by_cases hx : pr x
    · rw [if_pos hx] at h
      cases h
    · rw [if_neg hx] at h
      cases hrest : firstMatchIdx pr rest with
      | some i2 => rw [hrest] at h; cases h
      | none =>
        cases i with
        | zero =>
          have : x = r := Option.some.inj hg
          rw [← this]
          simpa using hx
        | succ i2 =>
          exact ih hrest i2 r (by simpa using hg)

theorem firstMatchIdx_of_first {pr : Rule → Bool} :
    ∀ {rules : List Rule} {i : Nat} {r : Rule},
      rules.get? i = some r → pr r = true →
      (∀ j r2, j < i → rules.get? j = some r2 → pr r2 = false) →
      firstMatchIdx pr rules = some i := by
  intro rules
  induction rules with
  | nil => intro i r hg; cases hg
  | cons x rest ih =>
    intro i r hg hpr hmin
    unfold firstMatchIdx
    cases i with
    | zero =>
      have : x = r := Option.some.inj hg
      rw [if_pos (by rw [this]; exact hpr)]
    | succ i2 =>
      have hx : pr x = false := hmin 0 x (Nat.succ_pos _) rfl
      rw [if_neg (by simp [hx])]
      have hrest : firstMatchIdx pr rest = some i2 := by
        apply ih (by simpa using hg) hpr
        intro j r2 hj hg2
        exact hmin (j + 1) r2 (by omega) (by simpa using hg2)
      rw [hrest]
      rfl

/-- C1 (amended): whenever every fully matching rule index lies in the
candidate pool drawn from the minimum-sum field pair — which the
longest-prefix IP lookup does not always guarantee — the classifier
returns exactly the spec's `min { i : rule_i fully matches }` with that
rule's target, and `(none, default_target)` when no rule matches. -/
theorem c1_pool_complete_min_index (dt : RuleTarget) (rules : List Rule)
    (d : Device) (p : Proto) (a : SocketAddr) (e : String)
    (hcomplete : ∀ i, i < rules.length → matchesAt rules d p a e i = true →
        i ∈ (IndexedRules.new dt rules).pool d p a e) :
    (IndexedRules.new dt rules).matchTargetE d p a e
      = some (specMatch rules dt d p a e) := by
  obtain ⟨res, hres, hcase⟩ := matchTargetE_spec dt rules d p a e
  rw [hres]
  rcases hcase with ⟨h1, h2, h3⟩ | ⟨id, rule, h1, h2, h3, h4, h5, h6⟩
  · have hnone : firstMatchIdx (fun r => r.matches d p a e) rules = none := by
      cases hfm : firstMatchIdx (fun r => r.matches d p a e) rules with
      | none => rfl
      | some i =>
        obtain ⟨r, hget, hpr⟩ := firstMatchIdx_some_matches hfm
        have hlt : i < rules.length := (List.get?_eq_some.mp hget).1
        have hma : matchesAt rules d p a e i = true := by
          unfold matchesAt
          rw [hget]
          exact hpr
        have hpool := hcomplete i hlt hma
        have := h3 i hpool
        rw [hma] at this
        cases this
    obtain ⟨r1, r2⟩ := res
    simp only at h1 h2
    subst h1
    subst h2
    simp only [specMatch, hnone]
  · have hfm : firstMatchIdx (fun r => r.matches d p a e) rules = some id := by
      apply firstMatchIdx_of_first h3 h4
      intro j r2 hj hg2
      cases hmj : r2.matches d p a e with
      | false => rfl
      | true =>
        have hma : matchesAt rules d p a e j = true := by
          unfold matchesAt
          rw [hg2]
          exact hmj
        have hjlt : j < rules.length := (List.get?_eq_some.mp hg2).1
        have hjpool := hcomplete j hjlt hma
        have := h6 j hjpool hma
        omega
    obtain ⟨r1, r2⟩ := res
    simp only at h1 h5
    subst h1
    subst h5
    simp only [specMatch, hfm, h3]

theorem lookupCache_mem :
    ∀ {c : List (Nat × (Option Nat × RuleTarget))} {k : Nat}
      {v : Option Nat × RuleTarget}, lookupCache c k = some v → (k, v) ∈ c := by
  intro c
  induction c with
  | nil => intro k v h; cases h
  | cons kv rest ih =>
    intro k v h
    obtain ⟨k2, v2⟩ := kv
    unfold lookupCache at h
    by_cases hk : k = k2
    · rw [if_pos hk] at h
      rw [hk, Option.some.inj h]
      exact List.mem_cons_self _ _
    · rw [if_neg hk] at h
      exact List.mem_cons_of_mem _ (ih h)

theorem applyTargetE_props {st : RtState} {t : RuleTarget} {len now : Nat}
    {ok : Bool} {st' : RtState} (h : applyTargetE st t len now = some (ok, st')) :
    st'.cache = st.cache ∧ st'.buckets.length = st.buckets.length ∧
    rateDecision st.buckets t len now = some ok := by
  cases t with
  | Accept =>
    have h2 : ((true, st) : Bool × RtState) = (ok, st') := Option.some.inj h
    injection h2 with ha hb
    rw [← ha, ← hb]
    exact ⟨rfl, rfl, rfl⟩
  | Drop =>
    have h2 : ((false, st) : Bool × RtState) = (ok, st') := Option.some.inj h
    injection h2 with ha hb
    rw [← ha, ← hb]
    exact ⟨rfl, rfl, rfl⟩
  | RateLimit rid =>
    simp only [applyTargetE] at h
    cases hg : st.buckets.get? rid with
    | none => rw [hg] at h; cases h
    | some b =>
      rw [hg] at h
      have h2 : (((b.stuff len now).2,
          { st with buckets := st.buckets.set rid (b.stuff len now).1 }) : Bool × RtState)
          = (ok, st') := Option.some.inj h
      injection h2 with ha hb
      rw [← ha, ← hb]
      refine ⟨rfl, by simp, ?_⟩
      simp only [rateDecision]
      rw [hg]
      rfl

theorem applyTargetE_total (st : RtState) (t : RuleTarget) (len now : Nat)
    (h : targetOk st.buckets.length t = true) :
    ∃ ok st', applyTargetE st t len now = some (ok, st') := by
  cases t with
  | Accept => exact ⟨true, st, rfl⟩
  | Drop => exact ⟨false, st, rfl⟩
  | RateLimit rid =>
    have hlt : rid < st.buckets.length := by
      have h2 : decide (rid < st.buckets.length) = true := h
      exact of_decide_eq_true h2
    cases hg : st.buckets.get? rid with
    | none =>
      rw [List.get?_eq_none] at hg
      omega
    | some b =>
      refine ⟨(b.stuff len now).2,
        { st with buckets := st.buckets.set rid (b.stuff len now).1 }, ?_⟩
      simp only [applyTargetE]
      rw [hg]

theorem matchTargetE_targetOk (dt : RuleTarget) (rules : List Rule) (nb : Nat)
    (hr : ∀ r ∈ rules, targetOk nb r.target = true) (hd : targetOk nb dt = true)
    (d : Device) (p : Proto) (a : SocketAddr) (e : String)
    (res : Option Nat × RuleTarget)
    (h : (IndexedRules.new dt rules).matchTargetE d p a e = some res) :
    targetOk nb res.2 = true := by
  obtain ⟨res2, hres2, hcase⟩ := matchTargetE_spec dt rules d p a e
  rw [hres2] at h
  cases Option.some.inj h
  rcases hcase with ⟨_, h2, _⟩ | ⟨id, rule, _, _, hget, _, h5, _⟩
  · rw [h2]
    exact hd
  · rw [h5]
    exact hr rule (List.get?_mem hget)

theorem isAcceptableE_spec (dt : RuleTarget) (rules : List Rule)
    (hashFn : CacheKey → Nat) (hinj : Function.Injective hashFn) (st : RtState)
    (d : Device) (p : Proto) (a : SocketAddr) (e : String) (len now : Nat)
    (res : Option Nat × Bool) (st' : RtState)
    (hc : CacheOkH hashFn (IndexedRules.new dt rules) st.cache)
    (h : (IndexedRules.new dt rules).isAcceptableE hashFn st d p a e len now
      = some (res, st')) :
    CacheOkH hashFn (IndexedRules.new dt rules) st'.cache ∧
    st'.buckets.length = st.buckets.length ∧
    ∃ t, (IndexedRules.new dt rules).matchTargetE d p a e = some (res.1, t) ∧
      rateDecision st.buckets t len now = some res.2 := by
  simp only [IndexedRules.isAcceptableE] at h
  split at h
  · next id t hlk =>
    split at h
    · next happ => cases h
    · next ok st2 happ =>
      have h2 : ((((id, ok) : Option Nat × Bool), st2)) = (res, st') :=
        Option.some.inj h
      injection h2 with ha hb
      obtain ⟨hcache, hlen, hrd⟩ := applyTargetE_props happ
      obtain ⟨k, hk, hmtk⟩ := hc _ (lookupCache_mem hlk)
      have hkeq : k = (⟨d, p, a, e⟩ : CacheKey) := hinj hk
      subst hkeq
      subst ha
      subst hb
      exact ⟨by rwa [hcache], hlen, t, hmtk, hrd⟩
  · next hlk =>
    split at h
    · next hmt => cases h
    · next id t hmt =>
      split at h
      · next happ => cases h
      · next ok st2 happ =>
        have h2 : ((((id, ok) : Option Nat × Bool), st2)) = (res, st') :=
          Option.some.inj h
        injection h2 with ha hb
        obtain ⟨hcache, hlen, hrd⟩ := applyTargetE_props happ
        subst ha
        subst hb
        refine ⟨?_, hlen, t, hmt, hrd⟩
        rw [hcache]
        intro kv hkv
        rcases List.mem_cons.mp hkv with h3 | h3
        · rw [h3]
          exact ⟨⟨d, p, a, e⟩, rfl, hmt⟩
        · exact hc _ h3

theorem isAcceptableE_inv (dt : RuleTarget) (rules : List Rule)
    (hashFn : CacheKey → Nat) (st : RtState)
    (d : Device) (p : Proto) (a : SocketAddr) (e : String) (len now : Nat)
    (res : Option Nat × Bool) (st' : RtState)
    (hc : CacheOkH hashFn (IndexedRules.new dt rules) st.cache)
    (h : (IndexedRules.new dt rules).isAcceptableE hashFn st d p a e len now
      = some (res, st')) :
    CacheOkH hashFn (IndexedRules.new dt rules) st'.cache ∧
    st'.buckets.length = st.buckets.length := by
  simp only [IndexedRules.isAcceptableE] at h
  split at h
  · next id t hlk =>
    split at h
    · next happ => cases h
    · next ok st2 happ =>
      have h2 : ((((id, ok) : Option Nat × Bool), st2)) = (res, st') :=
        Option.some.inj h
      injection h2 with ha hb
      obtain ⟨hcache, hlen, _⟩ := applyTargetE_props happ
      subst hb
      exact ⟨by rwa [hcache], hlen⟩
  · next hlk =>
    split at h
    · next hmt => cases h
    · next id t hmt =>
      split at h
      · next happ => cases h
      · next ok st2 happ =>
        have h2 : ((((id, ok) : Option Nat × Bool), st2)) = (res, st') :=
          Option.some.inj h
        injection h2 with ha hb
        obtain ⟨hcache, hlen, _⟩ := applyTargetE_props happ
        subst hb
        refine ⟨?_, hlen⟩
        rw [hcache]
        intro kv hkv
        rcases List.mem_cons.mp hkv with h3 | h3
        · rw [h3]
          exact ⟨⟨d, p, a, e⟩, rfl, hmt⟩
        · exact hc _ h3

theorem isAcceptableE_total (dt : RuleTarget) (rules : List Rule) (nb : Nat)
    (hr : ∀ r ∈ rules, targetOk nb r.target = true) (hd : targetOk nb dt = true)
    (hashFn : CacheKey → Nat) (st : RtState)
    (hc : CacheOkH hashFn (IndexedRules.new dt rules) st.cache)
    (hlen : st.buckets.length = nb)
    (d : Device) (p : Proto) (a : SocketAddr) (e : String) (len now : Nat) :
    ∃ res st', (IndexedRules.new dt rules).isAcceptableE hashFn st d p a e len now
      = some (res, st') := by
  simp only [IndexedRules.isAcceptableE]
  cases hlk : lookupCache st.cache (hashFn ⟨d, p, a, e⟩) with
  | some v =>
    obtain ⟨id, t⟩ := v
    obtain ⟨k, hk, hmtk⟩ := hc _ (lookupCache_mem hlk)
    have htok : targetOk st.buckets.length t = true := by
      rw [hlen]
      exact matchTargetE_targetOk dt rules nb hr hd _ _ _ _ _ hmtk
    obtain ⟨ok, st2, happ⟩ := applyTargetE_total st t len now htok
    refine ⟨(id, ok), st2, ?_⟩
    simp only [hlk, happ]
  | none =>
    obtain ⟨res0, hres0, _⟩ := matchTargetE_spec dt rules d p a e
    obtain ⟨id, t⟩ := res0
    have htok : targetOk ({ st with
        cache := (hashFn ⟨d, p, a, e⟩, (id, t)) :: st.cache } : RtState).buckets.length t
        = true := by
      have h2 := matchTargetE_targetOk dt rules nb hr hd _ _ _ _ _ hres0
      simpa [hlen] using h2
    obtain ⟨ok, st2, happ⟩ := applyTargetE_total
      { st with cache := (hashFn ⟨d, p, a, e⟩, (id, t)) :: st.cache } t len now htok
    refine ⟨(id, ok), st2, ?_⟩
    simp only [hlk, hres0, happ]

theorem runCalls_inv (dt : RuleTarget) (rules : List Rule) (hashFn : CacheKey → Nat) :
    ∀ (calls : List Call) (st st' : RtState),
      CacheOkH hashFn (IndexedRules.new dt rules) st.cache →
      runCalls (IndexedRules.new dt rules) hashFn st calls = some st' →
      CacheOkH hashFn (IndexedRules.new dt rules) st'.cache ∧
        st'.buckets.length = st.buckets.length := by
  intro calls
  induction calls with
  | nil =>
    intro st st' hc h
    have h2 : st = st' := Option.some.inj h
    rw [← h2]
    exact ⟨hc, rfl⟩
  | cons c rest ih =>
    intro st st' hc h
    unfold runCalls at h
    cases hstep : (IndexedRules.new dt rules).isAcceptableE hashFn st c.device
        c.protocol c.addr c.exe c.len c.now with
    | none => rw [hstep] at h; cases h
    | some resst =>
      obtain ⟨res, st2⟩ := resst
      rw [hstep] at h
      obtain ⟨hc2, hlen2⟩ := isAcceptableE_inv dt rules hashFn st _ _ _ _ _ _ _ _ hc hstep
      obtain ⟨hc3, hlen3⟩ := ih st2 st' hc2 h
      exact ⟨hc3, by omega⟩

theorem runCalls_total (dt : RuleTarget) (rules : List Rule) (nb : Nat)
    (hr : ∀ r ∈ rules, targetOk nb r.target = true) (hd : targetOk nb dt = true)
    (hashFn : CacheKey → Nat) :
    ∀ (calls : List Call) (st : RtState),
      CacheOkH hashFn (IndexedRules.new dt rules) st.cache → st.buckets.length = nb →
      ∃ st', runCalls (IndexedRules.new dt rules) hashFn st calls = some st' := by
  intro calls
  induction calls with
  | nil =>
    intro st _ _
    exact ⟨st, rfl⟩
  | cons c rest ih =>
    intro st hc hlen
    obtain ⟨res, st2, hstep⟩ :=
      isAcceptableE_total dt rules nb hr hd hashFn st hc hlen c.device c.protocol
        c.addr c.exe c.len c.now
    obtain ⟨hc2, hlen2⟩ := isAcceptableE_inv dt rules hashFn st _ _ _ _ _ _ _ _ hc hstep
    obtain ⟨st', h2⟩ := ih st2 hc2 (by omega)
    refine ⟨st', ?_⟩
    unfold runCalls
    rw [hstep]
    exact h2

/-- Witness for C1: a one-rule wildcard policy where the candidate pool is
complete; the classifier result coincides with the spec-side minimum. -/
theorem c1_min_index_witness :
    (IndexedRules.new .Drop wildcardRules).matchTargetE .Input .Tcp ⟨.V4 0, 1⟩ ""
      = some (specMatch wildcardRules .Drop .Input .Tcp ⟨.V4 0, 1⟩ "") :=
  c1_pool_complete_min_index .Drop wildcardRules .Input .Tcp ⟨.V4 0, 1⟩ "" (by decide)

/-- C7: for every policy whose rate-limit targets (of the rules and of the
default) all carry a bucket index below the number of rate buckets, and
for every digest function, `is_acceptable` never panics: every sequence
of classifier calls from the freshly constructed state completes with a
decision. -/
theorem c7_no_panic (dt : RuleTarget) (rules : List Rule) (rl : List Nat) (n0 : Nat)
    (hashFn : CacheKey → Nat)
    (hr : ∀ r ∈ rules, targetOk rl.length r.target = true)
    (hd : targetOk rl.length dt = true) (calls : List Call) :
    ∃ st, runCalls (IndexedRules.new dt rules) hashFn (initState rl n0) calls
      = some st := by
  apply runCalls_total dt rules rl.length hr hd hashFn calls (initState rl n0)
  · intro kv hkv
    simp [initState] at hkv
  · simp [initState]

/-- Witness for C7: a rate-limited one-rule policy with one bucket really
classifies a concrete packet without panicking. -/
theorem c7_witness :
    ∃ st, runCalls (IndexedRules.new .Drop rateLimitedRules) (fun _ => 0)
      (initState [1000] 0) [⟨.Input, .Tcp, ⟨.V4 0, 1⟩, "", 10, 0⟩] = some st :=
  c7_no_panic .Drop rateLimitedRules [1000] 0 (fun _ => 0) (by decide) (by decide)
    [⟨.Input, .Tcp, ⟨.V4 0, 1⟩, "", 10, 0⟩]

theorem encList_injective : Function.Injective encList := by
  intro a
  induction a with
  | nil =>
    intro b h
    cases b with
    | nil => rfl
    | cons y ys =>
      simp only [encList] at h
      omega
  | cons x xs ih =>
    intro b h
    cases b with
    | nil =>
      simp only [encList] at h
      omega
    | cons y ys =>
      simp only [encList] at h
      have h2 : Nat.pair x (encList xs) = Nat.pair y (encList ys) := by omega
      obtain ⟨hx, ht⟩ := Nat.pair_eq_pair.mp h2
      rw [hx, ih ht]

theorem charToNat_injective : Function.Injective Char.toNat := by
  intro a b h
  have h3 : a.val = b.val := by
    apply UInt32.eq_of_val_eq
    apply Fin.ext
    exact h
  cases a
  cases b
  simp only at h3
  simp [h3]

theorem encString_injective : Function.Injective encString := by
  intro a b h
  have h2 : a.data.map Char.toNat = b.data.map Char.toNat := encList_injective h
  have h3 : a.data = b.data :=
    List.map_injective_iff.mpr charToNat_injective h2
  cases a
  cases b
  simp only at h3
  simp [h3]

theorem encDevice_injective : Function.Injective encDevice := by
  intro a b h
  cases a <;> cases b <;> simp_all [encDevice]

theorem encProto_injective : Function.Injective encProto := by
  intro a b h
  cases a <;> cases b <;> simp_all [encProto]

theorem encIp_injective : Function.Injective encIp := by
  intro a b h
  cases a with
  | V4 x =>
    cases b with
    | V4 y =>
      simp only [encIp] at h
      have h2 : x = y := by omega
      rw [h2]
    | V6 y =>
      simp only [encIp] at h
      omega
  | V6 x =>
    cases b with
    | V4 y =>
      simp only [encIp] at h
      omega
    | V6 y =>
      simp only [encIp] at h
      have h2 : x = y := by omega
      rw [h2]

theorem hashInj_injective : Function.Injective hashInj := by
  intro k1 k2 h
  obtain ⟨d1, p1, a1, e1⟩ := k1
  obtain ⟨d2, p2, a2, e2⟩ := k2
  obtain ⟨ip1, pt1⟩ := a1
  obtain ⟨ip2, pt2⟩ := a2
  simp only [hashInj] at h
  obtain ⟨h1, h⟩ := Nat.pair_eq_pair.mp h
  obtain ⟨h2, h⟩ := Nat.pair_eq_pair.mp h
  obtain ⟨h3, h⟩ := Nat.pair_eq_pair.mp h
  obtain ⟨h4, h5⟩ := Nat.pair_eq_pair.mp h
  have hd := encDevice_injective h1
  have hp := encProto_injective h2
  have hip := encIp_injective h3
  have he := encString_injective h5
  rw [hd, hp, hip, h4, he]

/-- C5 (counterexample): the cache is keyed by the 64-bit digest, so
colliding keys alias. Under a colliding digest function (constantly 0)
and the one-rule policy accepting only exe "a": a fresh classification of
(in, tcp, 0.0.0.1:1, payload 0, "a") returns (some 0, true), but after
first classifying the same packet with exe "b" — cached under the same
digest — the identical inputs return (none, false): two calls with the
same (device, protocol, sockaddr, exe) and different rule index.
Moreover the accept bit is not a function of (bucket state, size) alone:
the same bucket ⟨58 bytes, window start 0, limit 60⟩ charged with size 5
accepts at instant 100 ms and refuses at instant 1000 ms. -/
theorem c5_counterexample :
    runCalls (IndexedRules.new .Drop aliasRules) (fun _ => 0) (initState [] 0)
        [⟨.Input, .Tcp, ⟨.V4 0, 1⟩, "b", 0, 0⟩]
      = some ⟨[], [(0, (none, .Drop))]⟩ ∧
    ((IndexedRules.new .Drop aliasRules).isAcceptableE (fun _ => 0)
        ⟨[], [(0, (none, .Drop))]⟩ .Input .Tcp ⟨.V4 0, 1⟩ "a" 0 0).map Prod.fst
      = some (none, false) ∧
    ((IndexedRules.new .Drop aliasRules).isAcceptableE (fun _ => 0)
        (initState [] 0) .Input .Tcp ⟨.V4 0, 1⟩ "a" 0 0).map Prod.fst
      = some (some 0, true) ∧
    (some ((none : Option Nat), false) : Option (Option Nat × Bool))
      ≠ some (some 0, true) ∧
    rateDecision [⟨58, 0, 60⟩] (.RateLimit 0) 5 100 = some true ∧
    rateDecision [⟨58, 0, 60⟩] (.RateLimit 0) 5 1000 = some false := by
  refine ⟨by decide, by decide, by decide, by decide, by decide, by decide⟩

/-- C5 (amended): provided the fingerprint function is collision-free
(injective) — which the determinism needs, and which a real 64-bit digest
cannot guarantee over the unbounded key space — any two classifier calls
with the same (device, protocol, sockaddr, exe), whatever the payload
lengths, call instants and previously classified packets, return the same
rule index and act on one underlying target, the pure classification of
the inputs; the accept bit is the rate decision, a function of
(bucket state, target, size, call instant): the instant enters through
the window reset, so it is not a function of (bucket state, size) alone. -/
theorem c5_classification_deterministic (dt : RuleTarget) (rules : List Rule)
    (rl : List Nat) (n0 : Nat) (hashFn : CacheKey → Nat)
    (hinj : Function.Injective hashFn)
    (calls1 calls2 : List Call) (st1 st2 : RtState)
    (d : Device) (p : Proto) (a : SocketAddr) (e : String) (l1 l2 n1 n2 : Nat)
    (r1 r2 : Option Nat × Bool) (st1' st2' : RtState)
    (h1 : runCalls (IndexedRules.new dt rules) hashFn (initState rl n0) calls1
      = some st1)
    (h2 : runCalls (IndexedRules.new dt rules) hashFn (initState rl n0) calls2
      = some st2)
    (g1 : (IndexedRules.new dt rules).isAcceptableE hashFn st1 d p a e l1 n1
      = some (r1, st1'))
    (g2 : (IndexedRules.new dt rules).isAcceptableE hashFn st2 d p a e l2 n2
      = some (r2, st2')) :
    r1.1 = r2.1 ∧
    ∃ t, (IndexedRules.new dt rules).matchTargetE d p a e = some (r1.1, t) ∧
      rateDecision st1.buckets t l1 n1 = some r1.2 ∧
      rateDecision st2.buckets t l2 n2 = some r2.2 := by
  have hc0 : CacheOkH hashFn (IndexedRules.new dt rules) (initState rl n0).cache := by
    intro kv hkv
    simp [initState] at hkv
  have hca := (runCalls_inv dt rules hashFn calls1 _ _ hc0 h1).1
  have hcb := (runCalls_inv dt rules hashFn calls2 _ _ hc0 h2).1
  obtain ⟨_, _, t, hmt, hrd1⟩ :=
    isAcceptableE_spec dt rules hashFn hinj st1 d p a e l1 n1 r1 st1' hca g1
  obtain ⟨_, _, t2, hmt2, hrd2⟩ :=
    isAcceptableE_spec dt rules hashFn hinj st2 d p a e l2 n2 r2 st2' hcb g2
  have heq : ((r1.1, t) : Option Nat × RuleTarget) = (r2.1, t2) :=
    Option.some.inj (hmt.symm.trans hmt2)
  injection heq with he1 he2
  subst he2
  exact ⟨he1, t, hmt, hrd1, hrd2⟩

/-- Witness for C5: under the collision-free digest `hashInj`, two first
calls with the same inputs on the empty policy agree. -/
theorem c5_witness :
    ((none, false) : Option Nat × Bool).1 = ((none, false) : Option Nat × Bool).1 ∧
    ∃ t, (IndexedRules.new .Drop ([] : List Rule)).matchTargetE
          .Input .Tcp ⟨.V4 0, 1⟩ ""
        = some (((none, false) : Option Nat × Bool).1, t) ∧
      rateDecision (initState [] 0).buckets t 5 0
        = some ((none, false) : Option Nat × Bool).2 ∧
      rateDecision (initState [] 0).buckets t 5 0
        = some ((none, false) : Option Nat × Bool).2 :=
  c5_classification_deterministic .Drop [] [] 0 hashInj hashInj_injective [] []
    (initState [] 0) (initState [] 0) .Input .Tcp ⟨.V4 0, 1⟩ "" 5 5 0 0
    (none, false) (none, false)
    ⟨[], [(hashInj ⟨.Input, .Tcp, ⟨.V4 0, 1⟩, ""⟩, (none, .Drop))]⟩
    ⟨[], [(hashInj ⟨.Input, .Tcp, ⟨.V4 0, 1⟩, ""⟩, (none, .Drop))]⟩
    rfl rfl rfl rfl

theorem mem_selIdxs_enum_iff {pr : Rule → Bool} {rules : List Rule} {i : Nat}
    {r : Rule} (h : rules.get? i = some r) :
    i ∈ selIdxs pr rules.enum ↔ pr r = true := by
  rw [mem_selIdxs]
  constructor
  · rintro ⟨r2, hm, hp⟩
    have h2 := mem_enum_iff.mp hm
    rw [h] at h2
    cases Option.some.inj h2
    exact hp
  · intro hp
    exact ⟨r, mem_enum_iff.mpr h, hp⟩

theorem v4Key_some_iff {r : Rule} {k : Nat × Nat} :
    v4Key r = some k ↔
      ∃ pfx m, r.subnet = some (.V4 pfx, m) ∧ k = (natMask 32 pfx m, m) := by
  unfold v4Key
  cases hs : r.subnet with
  | none => simp
  | some pm =>
    obtain ⟨ip, m⟩ := pm
    cases ip with
    | V4 pfx =>
      constructor
      · intro hk
        exact ⟨pfx, m, rfl, (Option.some.inj hk).symm⟩
      · rintro ⟨pfx2, m2, hsub, hk⟩
        have h3 := Option.some.inj hsub
        injection h3 with h4 h5
        injection h4 with h6
        rw [hk, ← h5, ← h6]
    | V6 pfx =>
      constructor
      · intro hk
        cases hk
      · rintro ⟨pfx2, m2, hsub, hk⟩
        cases Option.some.inj hsub

theorem v6Key_some_iff {r : Rule} {k : Nat × Nat} :
    v6Key r = some k ↔
      ∃ pfx m, r.subnet = some (.V6 pfx, m) ∧ k = (natMask 128 pfx m, m) := by
  unfold v6Key
  cases hs : r.subnet with
  | none => simp
  | some pm =>
    obtain ⟨ip, m⟩ := pm
    cases ip with
    | V6 pfx =>
      constructor
      · intro hk
        exact ⟨pfx, m, rfl, (Option.some.inj hk).symm⟩
      · rintro ⟨pfx2, m2, hsub, hk⟩
        have h3 := Option.some.inj hsub
        injection h3 with h4 h5
        injection h4 with h6
        rw [hk, ← h5, ← h6]
    | V4 pfx =>
      constructor
      · intro hk
        cases hk
      · rintro ⟨pfx2, m2, hsub, hk⟩
        cases Option.some.inj hsub

/-- C10: after construction, every rule index lands in exactly one bucket
per field — the concrete map entry for its value (for subnets: the
mask-normalized prefix keyed per family; for ports: the single half-open
interval entry) when the rule specifies the field, otherwise that field's
wildcard list — and the indices within every such list are strictly
ascending. -/
theorem c10_index_partition (dt : RuleTarget) (rules : List Rule) (i : Nat)
    (r : Rule) (h : rules.get? i = some r) :
    ((∀ d, i ∈ (lookupIdx (IndexedRules.new dt rules).device d).getD []
        ↔ r.device = some d) ∧
     (i ∈ (IndexedRules.new dt rules).any_device ↔ r.device = none)) ∧
    ((∀ p, i ∈ (lookupIdx (IndexedRules.new dt rules).proto p).getD []
        ↔ r.proto = some p) ∧
     (i ∈ (IndexedRules.new dt rules).any_proto ↔ r.proto = none)) ∧
    ((∀ e, i ∈ (lookupIdx (IndexedRules.new dt rules).exe e).getD []
        ↔ r.exe = some e) ∧
     (i ∈ (IndexedRules.new dt rules).any_exe ↔ r.exe = none)) ∧
    ((∀ iv, (iv, i) ∈ (IndexedRules.new dt rules).port
        ↔ ∃ s e2, r.port = some (s, e2) ∧ iv = (s, (e2 + 1) % 65536)) ∧
     (i ∈ (IndexedRules.new dt rules).any_port ↔ r.port = none)) ∧
    ((∀ k, i ∈ (lookupIdx (IndexedRules.new dt rules).v4_table k).getD []
        ↔ ∃ pfx m, r.subnet = some (.V4 pfx, m) ∧ k = (natMask 32 pfx m, m)) ∧
     (i ∈ (IndexedRules.new dt rules).any_v4 ↔ r.subnet = none)) ∧
    ((∀ k, i ∈ (lookupIdx (IndexedRules.new dt rules).v6_table k).getD []
        ↔ ∃ pfx m, r.subnet = some (.V6 pfx, m) ∧ k = (natMask 128 pfx m, m)) ∧
     (i ∈ (IndexedRules.new dt rules).any_v6 ↔ r.subnet = none)) ∧
    ((∀ d, List.Pairwise (· < ·)
        ((lookupIdx (IndexedRules.new dt rules).device d).getD [])) ∧
     (∀ p, List.Pairwise (· < ·)
        ((lookupIdx (IndexedRules.new dt rules).proto p).getD [])) ∧
     (∀ e, List.Pairwise (· < ·)
        ((lookupIdx (IndexedRules.new dt rules).exe e).getD [])) ∧
     (∀ k, List.Pairwise (· < ·)
        ((lookupIdx (IndexedRules.new dt rules).v4_table k).getD [])) ∧
     (∀ k, List.Pairwise (· < ·)
        ((lookupIdx (IndexedRules.new dt rules).v6_table k).getD [])) ∧
     List.Pairwise (· < ·) (IndexedRules.new dt rules).any_device ∧
     List.Pairwise (· < ·) (IndexedRules.new dt rules).any_proto ∧
     List.Pairwise (· < ·) (IndexedRules.new dt rules).any_exe ∧
     List.Pairwise (· < ·) (IndexedRules.new dt rules).any_port ∧
     List.Pairwise (· < ·) (IndexedRules.new dt rules).any_v4 ∧
     List.Pairwise (· < ·) (IndexedRules.new dt rules).any_v6 ∧
     List.Pairwise (· < ·) ((IndexedRules.new dt rules).port.map Prod.snd)) := by
  refine ⟨⟨?_, ?_⟩, ⟨?_, ?_⟩, ⟨?_, ?_⟩, ⟨?_, ?_⟩, ⟨?_, ?_⟩, ⟨?_, ?_⟩,
    ?_, ?_, ?_, ?_, ?_, ?_, ?_, ?_, ?_, ?_, ?_, ?_⟩
  · intro d2
    rw [new_device_lookup, mem_selIdxs_enum_iff h]
    simp
  · rw [new_any_device, mem_selIdxs_enum_iff h]
    simp [Option.isNone_iff_eq_none]
  · intro p2
    rw [new_proto_lookup, mem_selIdxs_enum_iff h]
    simp
  · rw [new_any_proto, mem_selIdxs_enum_iff h]
    simp [Option.isNone_iff_eq_none]
  · intro e2
    rw [new_exe_lookup, mem_selIdxs_enum_iff h]
    simp
  · rw [new_any_exe, mem_selIdxs_enum_iff h]
    simp [Option.isNone_iff_eq_none]
  · intro iv
    rw [new_port, mem_portEntries]
    constructor
    · rintro ⟨r2, s, e2, hm, hp, hiv⟩
      have h2 := mem_enum_iff.mp hm
      rw [h] at h2
      cases Option.some.inj h2
      exact ⟨s, e2, hp, hiv⟩
    · rintro ⟨s, e2, hp, hiv⟩
      exact ⟨r, s, e2, mem_enum_iff.mpr h, hp, hiv⟩
  · rw [new_any_port, mem_selIdxs_enum_iff h]
    simp [Option.isNone_iff_eq_none]
  · intro k
    rw [new_v4_lookup, mem_selIdxs_enum_iff h]
    simp only [beq_iff_eq]
    exact v4Key_some_iff
  · rw [new_any_v4, mem_selIdxs_enum_iff h]
    simp [Option.isNone_iff_eq_none]
  · intro k
    rw [new_v6_lookup, mem_selIdxs_enum_iff h]
    simp only [beq_iff_eq]
    exact v6Key_some_iff
  · rw [new_any_v6, mem_selIdxs_enum_iff h]
    simp [Option.isNone_iff_eq_none]
  · intro d2
    rw [new_device_lookup]
    exact pairwise_selIdxs _ _
  · intro p2
    rw [new_proto_lookup]
    exact pairwise_selIdxs _ _
  · intro e2
    rw [new_exe_lookup]
    exact pairwise_selIdxs _ _
  · intro k
    rw [new_v4_lookup]
    exact pairwise_selIdxs _ _
  · intro k
    rw [new_v6_lookup]
    exact pairwise_selIdxs _ _
  · rw [new_any_device]
    exact pairwise_selIdxs _ _
  · rw [new_any_proto]
    exact pairwise_selIdxs _ _
  · rw [new_any_exe]
    exact pairwise_selIdxs _ _
  · rw [new_any_port]
    exact pairwise_selIdxs _ _
  · rw [new_any_v4]
    exact pairwise_selIdxs _ _
  · rw [new_any_v6]
    exact pairwise_selIdxs _ _
  · rw [new_port, portEntries_snd]
    exact pairwise_selIdxs _ _

/-- Witness for C10: rule 0 of the scenario policy sits in the concrete
device bucket for `Input`. -/
theorem c10_witness :
    0 ∈ (lookupIdx (IndexedRules.new .Drop scenarioRules).device Device.Input).getD []
      ↔ ({ device := some .Input, proto := none, exe := none, port := none,
           subnet := some (.V4 16843009, 32), target := .Accept } : Rule).device
          = some Device.Input :=
  ((c10_index_partition .Drop scenarioRules 0
      { device := some .Input, proto := none, exe := none, port := none,
        subnet := some (.V4 16843009, 32), target := .Accept } rfl).1.1) Device.Input


end Gleiphir
